import Mathlib

/-!
# Verification of the capturemd reconciliation core

Shallow embedding of the note-store, cache-reconciliation and
episode-indexing logic of the capturemd repository, with theorems checking
the natural-language specification against the embedded code.

Files are modelled as (path, content) pairs; directories as lists of files
in scan (glob) order; the external download tool as an oracle.
-/

namespace Capturemd

/-- Python `pat in hay` substring test, on strings viewed as char lists. -/
def strContains (hay pat : String) : Bool :=
decide (pat.toList <:+: hay.toList)

/-- Python `s.startswith t` / glob pattern `t*`. -/
def strStartsWith (s t : String) : Bool :=
t.toList.isPrefixOf s.toList

/-- Python `s.endswith t` / glob pattern `*t`. -/
def strEndsWith (s t : String) : Bool :=
t.toList.reverse.isPrefixOf s.toList.reverse

/-! ## NoteStore: url_processor.check_existing_note / create_initial_note

A scope directory is a list of markdown files in glob order.  The source
scans every `*.md` file and tests `f"locator: {locator}" in content`;
creation writes a fresh file `{note_id}.md` from a per-scope f-string
template. -/

structure MdFile where
  path : String
  content : String
deriving DecidableEq

/-- The note scopes handled by `create_initial_note`. -/
inductive Scope
| youtube
| github
| reddit
| steam
| hackernews
deriving DecidableEq

def scopeName : Scope → String
| .youtube => "youtube"
| .github => "github"
| .reddit => "reddit"
| .steam => "steam"
| .hackernews => "hackernews"

/-- The frontmatter text written by `create_initial_note` for each scope
(`tagsYaml` is the rendered tag block; the reddit variant carries an extra
`subreddit` line). -/
def noteContent (sc : Scope) (noteId locator tagsYaml subreddit : String) : String :=
match sc with
| .reddit =>
    "---\nid: " ++ noteId ++ "\n" ++ "locator: " ++ locator ++ "\nsubreddit: " ++ subreddit ++
      "\nparsed: false\nscope: reddit\n" ++ tagsYaml ++ "\n---\n"
| sc =>
    "---\nid: " ++ noteId ++ "\n" ++ "locator: " ++ locator ++
      "\nparsed: false\nscope: " ++ scopeName sc ++ "\n" ++ tagsYaml ++ "\n---\n"

/-- `url_processor.check_existing_note`: scan the scope directory in glob
order, return the path of the first note whose content contains
`"locator: {locator}"`. -/
def check_existing_note (locator : String) (dir : List MdFile) : Option String :=
(dir.find? (fun f => strContains f.content ("locator: " ++ locator))).map (fun f => f.path)

/-- `url_processor.create_initial_note` for the locator-bearing scopes: if a
note with this locator exists return its path unchanged, else append a fresh
note `{noteId}.md` rendered from the scope template. -/
def create_initial_note (sc : Scope) (dir : List MdFile)
    (locator noteId tagsYaml subreddit : String) : List MdFile × String :=
match check_existing_note locator dir with
| some p => (dir, p)
| none =>
    let f : MdFile := ⟨noteId ++ ".md", noteContent sc noteId locator tagsYaml subreddit⟩
    (dir ++ [f], f.path)

/-! ## EpisodeIndexer (episode_indexer.py)

NFO files are (name, content) pairs; a season directory is the list of its
files in glob order.  `re.search(r"<aired>(.*?)</aired>", content)` is
modelled by a leftmost-then-lazy scan in which `.` does not match a newline
(no DOTALL flag on these patterns); `datetime.strptime(s, "%Y-%m-%d")` by a
digit-wise parser with Python's month/day regexes and calendar validation;
`datetime.max` by a key larger than every parsable date. -/

def airedOpen : List Char := "<aired>".toList

def airedClose : List Char := "</aired>".toList

/-- Lazy completion of `(.*?)</aired>`: capture up to the first `</aired>`,
failing if a newline intervenes (`.` does not match `\n`). -/
def findAiredClose : List Char → Option (List Char)
| [] => none
| c :: cs =>
    if airedClose.isPrefixOf (c :: cs) then some []
    else if c = '\n' then none
    else (findAiredClose cs).map (fun g => c :: g)

/-- `re.search(r"<aired>(.*?)</aired>", content)`: try each start position
left to right; at a position where `<aired>` matches, complete lazily, else
resume one character later. Returns the captured group. -/
def searchAired : List Char → Option (List Char)
| [] => none
| c :: cs =>
    if airedOpen.isPrefixOf (c :: cs) then
      match findAiredClose ((c :: cs).drop 7) with
      | some g => some g
      | none => searchAired cs
    else searchAired cs

/-- Digit-string value (used for the %Y/%m/%d groups). -/
def parseNatDigits (cs : List Char) : Option Nat :=
if cs ≠ [] ∧ ∀ c ∈ cs, c.isDigit then
  some (cs.foldl (fun a c => a * 10 + (c.toNat - 48)) 0)
else none

/-- Day count per month with the Gregorian leap rule (datetime's calendar). -/
def daysInMonth (y m : Nat) : Nat :=
if m = 2 then (if (y % 4 = 0 ∧ y % 100 ≠ 0) ∨ y % 400 = 0 then 29 else 28)
else if m = 4 ∨ m = 6 ∨ m = 9 ∨ m = 11 then 30 else 31

/-- Split a character list on the `-` separator (Python `s.split("-")`). -/
def splitOnDash : List Char → List (List Char)
| [] => [[]]
| c :: rest =>
    if c = '-' then [] :: splitOnDash rest
    else
      match splitOnDash rest with
      | [] => [[c]]
      | h :: t => (c :: h) :: t

/-- `datetime.strptime(s, "%Y-%m-%d")`, encoded as the key
`y*10000 + m*100 + d` (order-isomorphic to the dates produced): %Y is
exactly four digits, %m and %d one or two digits in range, the whole string
must be consumed, and the day must exist in the month. -/
def strptimeYMD (s : List Char) : Option Nat :=
match splitOnDash s with
| [ys, ms, ds] =>
    match parseNatDigits ys, parseNatDigits ms, parseNatDigits ds with
    | some y, some m, some d =>
        if ys.length = 4 ∧ 1 ≤ y ∧ ms.length ≤ 2 ∧ 1 ≤ m ∧ m ≤ 12 ∧
            ds.length ≤ 2 ∧ 1 ≤ d ∧ d ≤ daysInMonth y m then
          some (y * 10000 + m * 100 + d)
        else none
    | _, _, _ => none
| _ => none

/-- Key standing for `datetime.max`: above every parsable date key. -/
def datetimeMaxKey : Nat := 100000000

/-- Aired-date sort key of one NFO content: parsed date, or `datetime.max`
when the tag is absent, empty (falsy) or unparsable. -/
def airedKey (content : String) : Nat :=
match searchAired content.toList with
| none => datetimeMaxKey
| some g =>
    if g = [] then datetimeMaxKey
    else
      match strptimeYMD g with
      | some k => k
      | none => datetimeMaxKey

structure NfoFile where
  name : String
  content : String
deriving DecidableEq

structure EpisodeInfo where
  name : String
  airedDate : Nat
  content : String
deriving DecidableEq

/-- `_extract_episode_info_from_nfo` (the fields that matter downstream). -/
def extractEpisodeInfo (f : NfoFile) : EpisodeInfo :=
⟨f.name, airedKey f.content, f.content⟩

/-- `[f for f in season_dir.glob("*.nfo") if f.name != "tvshow.nfo"]`. -/
def episodeNfoFiles (dir : List NfoFile) : List NfoFile :=
dir.filter (fun f => strEndsWith f.name ".nfo" && !(f.name == "tvshow.nfo"))

def episodeData (dir : List NfoFile) : List EpisodeInfo :=
(episodeNfoFiles dir).map extractEpisodeInfo

/-- `episode_data.sort(key=lambda x: x["aired_date"])` uses a stable sort
ordered by the aired-date key. -/
def infoLe (x y : EpisodeInfo) : Bool :=
decide (x.airedDate ≤ y.airedDate)

def sortedEpisodeData (dir : List NfoFile) : List EpisodeInfo :=
(episodeData dir).mergeSort infoLe

/-- `enumerate(episode_data, start=1)` after sorting: each descriptor with
its assigned episode number. -/
def episodeAssignment (dir : List NfoFile) : List (EpisodeInfo × Nat) :=
(sortedEpisodeData dir).zip (List.range' 1 (sortedEpisodeData dir).length)

theorem dropPrefixQ_eq_some {l p s : List Char} :
    l.dropPrefix? p = some s ↔ l = p ++ s := by
  rw [List.dropPrefix?_eq_some_iff]
  constructor
  · rintro ⟨q, hq, he⟩
    rw [hq, eq_of_beq he]
  · intro h
    exact ⟨p, h, by simp⟩

def episodeTagHead : List Char := "\n    <episode>".toList

def episodeTagClose : List Char := "</episode>".toList

/-- One attempted match of `\n    <episode>\d+</episode>` at the head of
`cs`: the greedy `\d+` takes the maximal digit run, which must be nonempty
and be followed by the closing tag.  Returns the remainder after the match. -/
def stripEpisodeAt (cs : List Char) : Option (List Char) :=
match cs.dropPrefix? episodeTagHead with
| none => none
| some rest =>
    if (rest.takeWhile (·.isDigit)).isEmpty then none
    else (rest.dropWhile (·.isDigit)).dropPrefix? episodeTagClose

theorem stripEpisodeAt_shape {cs rest : List Char} (h : stripEpisodeAt cs = some rest) :
    ∃ ds, ds ≠ [] ∧ (∀ c ∈ ds, c.isDigit) ∧
      cs = episodeTagHead ++ ds ++ episodeTagClose ++ rest := by
  unfold stripEpisodeAt at h
  cases h1 : cs.dropPrefix? episodeTagHead with
  | none => rw [h1] at h; exact absurd h (by simp)
  | some r0 =>
      rw [h1] at h
      have h' : (if (r0.takeWhile (·.isDigit)).isEmpty then none
          else (r0.dropWhile (·.isDigit)).dropPrefix? episodeTagClose) = some rest := h
      clear h
      by_cases h2 : (r0.takeWhile (·.isDigit)).isEmpty
      · rw [if_pos h2] at h'; exact absurd h' (by simp)
      · rw [if_neg h2] at h'
        have h := h'
        refine ⟨r0.takeWhile (·.isDigit), by simpa using h2, ?_, ?_⟩
        · intro c hc
          exact List.mem_takeWhile_imp hc
        · have h3 := dropPrefixQ_eq_some.mp h1
          have h4 := dropPrefixQ_eq_some.mp h
          have h5 : r0 = r0.takeWhile (·.isDigit) ++ (episodeTagClose ++ rest) := by
            rw [← h4, List.takeWhile_append_dropWhile]
          rw [h3]
          conv_lhs => rw [h5]
          simp [List.append_assoc]

theorem stripEpisodeAt_length {cs rest : List Char} (h : stripEpisodeAt cs = some rest) :
    rest.length < cs.length := by
  obtain ⟨ds, _, _, he⟩ := stripEpisodeAt_shape h
  subst he
  simp [episodeTagHead, episodeTagClose]
  omega

/-- `re.sub(r"\n    <episode>\d+</episode>", "", content)`: scan left to
right, drop non-overlapping matches, keep every other character. -/
def removeEpisodeTagAux (cs : List Char) : List Char :=
match h : stripEpisodeAt cs with
| some rest => removeEpisodeTagAux rest
| none =>
    match cs with
    | [] => []
    | c :: cs2 => c :: removeEpisodeTagAux cs2
termination_by cs.length
decreasing_by
· exact stripEpisodeAt_length h
· simp

/-- `_remove_episode_tag`. -/
def removeEpisodeTag (content : String) : String :=
String.mk (removeEpisodeTagAux content.toList)

def seasonOpen : List Char := "<season>".toList

def seasonClose : List Char := "</season>".toList

/-- Lazy completion of `(<season>.*?</season>)` after the opening tag:
capture up to the first `</season>` with no intervening newline; returns
the group middle and the remainder after the closing tag. -/
def findSeasonClose : List Char → Option (List Char × List Char)
| [] => none
| c :: cs =>
    if seasonClose.isPrefixOf (c :: cs) then some ([], (c :: cs).drop 9)
    else if c = '\n' then none
    else (findSeasonClose cs).map (fun p => (c :: p.1, p.2))

theorem findSeasonClose_length {cs : List Char} {mid rest : List Char}
    (h : findSeasonClose cs = some (mid, rest)) : rest.length ≤ cs.length := by
  induction cs generalizing mid with
  | nil => simp [findSeasonClose] at h
  | cons c cs2 ih =>
      unfold findSeasonClose at h
      by_cases h1 : seasonClose.isPrefixOf (c :: cs2)
      · rw [if_pos h1] at h
        have : rest = (c :: cs2).drop 9 := by
          cases h; rfl
        subst this
        simp only [List.length_drop, List.length_cons]
        omega
      · rw [if_neg h1] at h
        by_cases h2 : c = '\n'
        · rw [if_pos h2] at h; exact absurd h (by simp)
        · rw [if_neg h2] at h
          cases h3 : findSeasonClose cs2 with
          | none => rw [h3] at h; exact absurd h (by simp)
          | some p =>
              rw [h3] at h
              obtain ⟨m2, r2⟩ := p
              have hr : rest = r2 := by
                simp at h; exact h.2.symm
              subst hr
              exact Nat.le_succ_of_le (ih h3)

/-- `re.sub(r"(<season>.*?</season>)", rf"\1\n    <episode>{n}</episode>", content)`:
every non-overlapping season tag is kept and followed by the new episode
tag; positions where the open tag matches but no same-line close follows
are passed over. -/
def seasonSubAux (n : Nat) (cs : List Char) : List Char :=
match cs with
| [] => []
| c :: cs2 =>
    if seasonOpen.isPrefixOf (c :: cs2) then
      match h : findSeasonClose ((c :: cs2).drop 8) with
      | some (mid, rest) =>
          seasonOpen ++ mid ++ seasonClose ++
            ("\n    <episode>" ++ toString n ++ "</episode>").toList ++ seasonSubAux n rest
      | none => c :: seasonSubAux n cs2
    else c :: seasonSubAux n cs2
termination_by cs.length
decreasing_by
· have h2 := findSeasonClose_length h
  simp at h2 ⊢
  omega
· simp
· simp

/-- `_add_episode_tag`: remove any existing episode tag, then insert the new
one right after each season tag. -/
def addEpisodeTag (content : String) (episodeNum : Nat) : String :=
String.mk (seasonSubAux episodeNum (removeEpisodeTagAux content.toList))

/-- The rewrite performed on each file by `_reindex_season` (the loop body
writing `_add_episode_tag(content, episode_num)` per sorted descriptor). -/
def reindexWrites (dir : List NfoFile) : List NfoFile :=
(episodeAssignment dir).map (fun p => ⟨p.1.name, addEpisodeTag p.1.content p.2⟩)

/-- `"<episode>" not in content` check driving the non-forced entry. -/
def needsReindexing (dir : List NfoFile) : Bool :=
(episodeNfoFiles dir).any (fun f => !(strContains f.content "<episode>"))

/-- Directory state after the per-file writes. -/
def applyWrites (dir : List NfoFile) (ws : List NfoFile) : List NfoFile :=
dir.map (fun f =>
  match ws.find? (fun w => w.name == f.name) with
  | some w => w
  | none => f)

/-- `_reindex_season season_dir force`: returns the directory contents after
the call (unchanged when the early no-op exits fire). -/
def reindexSeason (dir : List NfoFile) (force : Bool) : List NfoFile :=
if (episodeNfoFiles dir).isEmpty then dir
else if !force && !needsReindexing dir then dir
else applyWrites dir (reindexWrites dir)

/-! ## Cache eviction (cache_manager.delete_cached_file)

The cache tree is a list of files, each a (directory path, filename) pair
with `[]` the cache root; paths are unique (`Nodup`).  `pathlib` notions:
`suffix` is the part from the last dot when that dot is neither the first
nor the last character, `stem` is the rest. -/

structure CFile where
  dir : List String
  name : String
deriving DecidableEq

def videoExts : List String := [".mp4", ".mkv", ".webm"]

def mediaExts : List String := [".mp4", ".mkv", ".webm", ".mp3", ".m4a", ".opus"]

def auxExts : List String :=
  [".srt", ".nfo", ".description", ".json", ".info.json", ".en.srt", ".en.vtt"]

/-- Split a character list around its last dot; `none` when it has none. -/
def splitLastDot : List Char → Option (List Char × List Char)
| [] => none
| c :: rest =>
    match splitLastDot rest with
    | some p => some (c :: p.1, p.2)
    | none => if c = '.' then some ([], rest) else none

/-- `pathlib.PurePath.suffix`. -/
def lastSuffix (name : String) : String :=
match splitLastDot name.toList with
| none => ""
| some p => if p.1 ≠ [] ∧ p.2 ≠ [] then String.mk ('.' :: p.2) else ""

/-- `pathlib.PurePath.stem`. -/
def stemOf (name : String) : String :=
match splitLastDot name.toList with
| none => name
| some p => if p.1 ≠ [] ∧ p.2 ≠ [] then String.mk p.1 else name

/-- Python `str.lower` restricted to ASCII case mapping. -/
def strLower (s : String) : String :=
String.mk (s.toList.map Char.toLower)

/-- The `all_media_files` collection of `delete_cached_file`: for each
extension, the direct root path if it exists, then every glob hit of
`**/{file_id}{ext}` (the `**` pattern also matches the root, so a root file
appears twice). -/
def allMediaFiles (file_id : String) (fs : List CFile) : List CFile :=
mediaExts.flatMap (fun ext =>
  fs.filter (fun f => f.dir.isEmpty && f.name == file_id ++ ext) ++
  fs.filter (fun f => f.name == file_id ++ ext))

/-- The auxiliary-file predicate of the inner deletion loop:
`parent_dir.glob(f"{file_id}.*")`, skipping media suffixes, deleting only
the listed sidecar suffixes. -/
def isAuxDeleted (file_id : String) (dirPath : List String) (f : CFile) : Bool :=
f.dir == dirPath && strStartsWith f.name (file_id ++ ".") &&
  !(mediaExts.contains (strLower (lastSuffix f.name))) &&
  auxExts.contains (strLower (lastSuffix f.name))

def deleteAuxIn (file_id : String) (dirPath : List String) (fs : List CFile) : List CFile :=
fs.filter (fun f => !(isAuxDeleted file_id dirPath f))

/-- The media-deletion loop: unlink each collected media file and its
sidecars; unlinking an already-deleted path raises, which the enclosing
handler turns into a `False` return, aborting the rest of the loop. -/
def deleteLoop (file_id : String) : List CFile → List CFile → List CFile × Bool
| [], fs => (fs, true)
| m :: ms, fs =>
    if fs.contains m then
      deleteLoop file_id ms (deleteAuxIn file_id m.dir (fs.erase m))
    else (fs, false)

/-- `delete_cached_file`: remaining files and the returned success flag. -/
def delete_cached_file (file_id : String) (fs : List CFile) : List CFile × Bool :=
let ms := allMediaFiles file_id fs
if ms.isEmpty then (fs, false)
else deleteLoop file_id ms fs

/-! ## CacheReconciler (cache_manager.manage_youtube_cache, full pass)

Frontmatter values are a YAML-value type with Python truthiness; a parsed
frontmatter is a key/value list (`None`/malformed files appear as `none`).
The external downloader is an oracle from the locator value to the files it
leaves on disk; the verify branch's NFO synthesis is a second oracle. -/

inductive YVal
| bool (b : Bool)
| str (s : String)
| int (n : Int)
| nullV
| listV (xs : List String)
| other
deriving DecidableEq

/-- Python truthiness of a frontmatter value. -/
def YVal.truthy : YVal → Bool
| .bool b => b
| .str s => !(s == "")
| .int n => !(n == 0)
| .nullV => false
| .listV xs => !xs.isEmpty
| .other => true

def fmGet (fm : List (String × YVal)) (k : String) : Option YVal :=
(fm.find? (fun p => p.1 == k)).map (fun p => p.2)

def fmHasKey (fm : List (String × YVal)) (k : String) : Bool :=
(fm.find? (fun p => p.1 == k)).isSome

/-- `should_cache[k] = v` on a Python dict: replace in place or append. -/
def assocSet (m : List (YVal × YVal)) (k v : YVal) : List (YVal × YVal) :=
if m.any (fun p => p.1 == k) then m.map (fun p => if p.1 == k then (k, v) else p)
else m ++ [(k, v)]

def assocGet (m : List (YVal × YVal)) (k : YVal) : Option YVal :=
(m.find? (fun p => p.1 == k)).map (fun p => p.2)

/-- One iteration of the notes scan:
`if frontmatter and "locator" in frontmatter: should_cache[loc] = frontmatter.get("cache", False)`. -/
def shouldCacheStep (m : List (YVal × YVal)) (fm? : Option (List (String × YVal))) :
    List (YVal × YVal) :=
match fm? with
| some fm =>
    if !fm.isEmpty && fmHasKey fm "locator" then
      match fmGet fm "locator" with
      | some loc => assocSet m loc ((fmGet fm "cache").getD (.bool false))
      | none => m
    else m
| none => m

/-- The `should_cache` dict built from the notes scan. -/
def buildShouldCache (notes : List (Option (List (String × YVal)))) : List (YVal × YVal) :=
notes.foldl shouldCacheStep []

/-- A file counted by the cached-ids scan: a `*{ext}` glob hit for one of the
video extensions (`pathlib` globs also match dot-files, and `*` may match the
empty string, so a file named exactly `.mp4` is counted). -/
def isCountedVideo (f : CFile) : Bool :=
videoExts.any (fun e => strEndsWith f.name e)

/-- `get_youtube_cached_ids`: the set of stems of all video files, root and
subdirectories alike, in scan order. -/
def get_youtube_cached_ids (fs : List CFile) : List String :=
(videoExts.flatMap (fun ext =>
  (fs.filter (fun f => strEndsWith f.name ext)).map
    (fun f => stemOf f.name))).dedup

/-- The eviction loop's selection:
`vid not in should_cache or not should_cache[vid]`. -/
def evictIds (cachedIds : List String) (D : List (YVal × YVal)) : List String :=
cachedIds.filter (fun vid =>
  match assocGet D (.str vid) with
  | none => true
  | some v => !v.truthy)

/-- The download loop's selection: `cache and vid not in cached_ids`. -/
def fetchKeys (cachedIds : List String) (D : List (YVal × YVal)) : List YVal :=
(D.filter (fun p => p.2.truthy &&
  !(match p.1 with
    | YVal.str s => cachedIds.contains s
    | _ => false))).map (fun p => p.1)

/-- The eviction loop: each selected id is deleted in turn; the flag
records that every `delete_cached_file` call returned success. -/
def runEvictions (ids : List String) (fs : List CFile) : List CFile × Bool :=
match ids with
| [] => (fs, true)
| id :: rest =>
    let r := delete_cached_file id fs
    let r2 := runEvictions rest r.1
    (r2.1, r.2 && r2.2)

/-- One iteration of the download/verify loop over `should_cache.items()`:
a desired missing entry is downloaded, a desired present entry has its NFO
verified; both external effects only append files. -/
def fetchStep (dl nfoAdd : YVal → List CFile) (cachedIds : List String)
    (p : YVal × YVal) (fs : List CFile) : List CFile :=
if p.2.truthy then
  match p.1 with
  | YVal.str s => if cachedIds.contains s then fs ++ nfoAdd p.1 else fs ++ dl p.1
  | _ => fs ++ dl p.1
else fs

def runFetchPass (dl nfoAdd : YVal → List CFile) (cachedIds : List String) :
    List (YVal × YVal) → List CFile → List CFile
| [], fs => fs
| p :: rest, fs => runFetchPass dl nfoAdd cachedIds rest (fetchStep dl nfoAdd cachedIds p fs)

/-- `manage_youtube_cache()` (full pass, no locator filter): snapshot the
cached ids and the desired map, evict, then download/verify.  The final
episode reindexing rewrites NFO contents in place and neither adds nor
removes files, so it does not affect the file list. -/
def manage_youtube_cache (notes : List (Option (List (String × YVal))))
    (dl nfoAdd : YVal → List CFile) (fs : List CFile) : List CFile × Bool :=
let cachedIds := get_youtube_cached_ids fs
let D := buildShouldCache notes
let ev := runEvictions (evictIds cachedIds D) fs
(runFetchPass dl nfoAdd cachedIds D ev.1, ev.2)

/-! ## Fetch with one fallback (cache_manager.download_youtube_video)

The subprocess world is an oracle giving the outcome of the metadata call,
the primary download and the fallback download; the function returns its
success flag together with the trace of yt-dlp invocations it performed. -/

structure DownloadWorld where
  metadataOk : Bool
  primaryOk : Bool
  fallbackOk : Bool

inductive YtCall
| metadataFetch (cmd : List String)
| download (cmd : List String)
deriving DecidableEq

/-- The metadata command `yt-dlp URL --dump-json --no-playlist`. -/
def ytDlpJsonCmd (video_id : String) : List String :=
["yt-dlp", "https://www.youtube.com/watch?v=" ++ video_id, "--dump-json", "--no-playlist"]

/-- The primary download command (with subtitle acquisition). -/
def ytDlpDownloadCmd (video_id outputTemplate : String) : List String :=
["yt-dlp", "https://www.youtube.com/watch?v=" ++ video_id, "-o", outputTemplate,
 "--format", "bestvideo[height<=720]+bestaudio/best[height<=720]",
 "--merge-output-format", "mp4", "--add-metadata", "--write-auto-subs", "--write-subs",
 "--sub-langs", "en.*", "--embed-subs", "--embed-chapters", "--convert-subs", "srt"]

/-- The fallback command: same download without the subtitle options. -/
def ytDlpFallbackCmd (video_id outputTemplate : String) : List String :=
["yt-dlp", "https://www.youtube.com/watch?v=" ++ video_id, "-o", outputTemplate,
 "--format", "bestvideo[height<=720]+bestaudio/best[height<=720]",
 "--merge-output-format", "mp4", "--add-metadata", "--embed-chapters"]

/-- `download_youtube_video`: metadata fetch, one download attempt, at most
one fallback attempt, then give up. -/
def download_youtube_video (w : DownloadWorld) (video_id outputTemplate : String) :
    Bool × List YtCall :=
if !w.metadataOk then (false, [.metadataFetch (ytDlpJsonCmd video_id)])
else if w.primaryOk then
  (true, [.metadataFetch (ytDlpJsonCmd video_id),
          .download (ytDlpDownloadCmd video_id outputTemplate)])
else
  (w.fallbackOk, [.metadataFetch (ytDlpJsonCmd video_id),
                  .download (ytDlpDownloadCmd video_id outputTemplate),
                  .download (ytDlpFallbackCmd video_id outputTemplate)])

def downloadCallCount (tr : List YtCall) : Nat :=
(tr.filter (fun c => match c with | .download _ => true | _ => false)).length

/-! ## Unparsed-note scan (parse_notes.extract_frontmatter / find_unparsed_notes)

The frontmatter pattern `^---\s*\n(.*?)\n---\s*\n` (DOTALL) is modelled with
regex backtracking order: `\s*` prefers the longest run whose next character
is the literal newline, `(.*?)` prefers the shortest block.  `yaml.safe_load`
is an oracle from the block to an optional key/value list; `none` stands for
a `YAMLError` (caught and turned into `(None, content)`) or a non-mapping
result.  The scan emits no log entries: neither `extract_frontmatter` nor
`find_unparsed_notes` calls `log_error`. -/

def isPyWs (c : Char) : Bool :=
c = ' ' || c = '\t' || c = '\n' || c = '\r' || c = '\x0b' || c = '\x0c'

/-- Remainders after `\s*\n`, in backtracking preference order (greedy
`\s*` first): each position inside the leading whitespace run holding a
newline, longest first. -/
def wsNlCandidates (cs : List Char) : List (List Char) :=
((List.range (cs.takeWhile isPyWs).length).reverse).filterMap (fun i =>
  if cs.get? i = some '\n' then some (cs.drop (i + 1)) else none)

/-- Lazy `(.*?)` up to `\n---\s*\n`: grow the captured block one character
at a time, at each position first trying to close the match. -/
def findBlockAux : List Char → List Char → Option (List Char × List Char)
| _, [] => none
| acc, c :: cs =>
    if "\n---".toList.isPrefixOf (c :: cs) then
      match (wsNlCandidates ((c :: cs).drop 4)).head? with
      | some rest => some (acc.reverse, rest)
      | none => findBlockAux (c :: acc) cs
    else findBlockAux (c :: acc) cs

/-- `re.match(r"^---\s*\n(.*?)\n---\s*\n", content, re.DOTALL)`: the
captured group and the content after the match end. -/
def fmRegexSplit (content : List Char) : Option (List Char × List Char) :=
if "---".toList.isPrefixOf content then
  (wsNlCandidates (content.drop 3)).findSome? (fun r => findBlockAux [] r)
else none

/-- `parse_notes.extract_frontmatter`: on a regex match feed the group to
`yaml.safe_load`; a `YAMLError` yields `(None, content)`. -/
def extract_frontmatter_pn (yamlParse : List Char → Option (List (String × YVal)))
    (content : List Char) : Option (List (String × YVal)) × List Char :=
match fmRegexSplit content with
| some p =>
    match yamlParse p.1 with
    | some fm => (some fm, p.2)
    | none => (none, content)
| none => (none, content)

inductive LogEntry
| parseError (file : String)
deriving DecidableEq

structure MdScanFile where
  path : String
  content : List Char
deriving DecidableEq

structure UnparsedNote where
  path : String
  frontmatter : List (String × YVal)
  rest : List Char
deriving DecidableEq

/-- `frontmatter and frontmatter.get("parsed") is False` plus the optional
locator filter. -/
def noteMatches (locator : Option String) (fm : List (String × YVal)) : Bool :=
!fm.isEmpty && (fmGet fm "parsed" == some (YVal.bool false)) &&
  (match locator with
   | none => true
   | some loc => fmGet fm "locator" == some (YVal.str loc))

/-- `find_unparsed_notes`: selected notes in scan order, together with the
log entries emitted during the scan. -/
def find_unparsed_notes (yamlParse : List Char → Option (List (String × YVal)))
    (locator : Option String) : List MdScanFile → List UnparsedNote × List LogEntry
| [] => ([], [])
| f :: rest =>
    match (extract_frontmatter_pn yamlParse f.content).1 with
    | some fm =>
        if noteMatches locator fm then
          (⟨f.path, fm, (extract_frontmatter_pn yamlParse f.content).2⟩ ::
            (find_unparsed_notes yamlParse locator rest).1,
           (find_unparsed_notes yamlParse locator rest).2)
        else find_unparsed_notes yamlParse locator rest
    | none => find_unparsed_notes yamlParse locator rest

/-! ## YouTube enrichment (capture_youtube.parse_note)

`yt-dlp --dump-json` output is an oracle (`none` = failure); the fields the
function reads are optional strings/numbers with Python `.get` defaults.
A `datetime.strptime(date_str, "%Y%m%d")` failure raises out of the
function, so the model returns `none` there; `datetime.now().date()` is
environment-dependent and modelled as an opaque value. -/

structure VideoInfo where
  title : Option String
  channel : Option String
  uploader : Option String
  channel_id : Option String
  upload_date : Option String
  duration : Option Int
  thumbnail : Option String

/-- One month/day split attempt of the `%m%d` tail. -/
def tryMD (y : Nat) (mcs dcs : List Char) : Option Nat :=
match parseNatDigits mcs, parseNatDigits dcs with
| some m, some d =>
    if 1 ≤ m ∧ m ≤ 12 ∧ 1 ≤ d ∧ d ≤ daysInMonth y m then
      some (y * 10000 + m * 100 + d)
    else none
| _, _ => none

/-- `datetime.strptime(s, "%Y%m%d")` as the key `y*10000+m*100+d`: four
digits of year, then one or two of month and day consuming the whole
string, two-digit month preferred (the regex alternation order). -/
def strptimeYMD8 (s : String) : Option Nat :=
match parseNatDigits (s.toList.take 4) with
| none => none
| some y =>
    if s.toList.length = 8 ∧ 1 ≤ y then
      tryMD y ((s.toList.drop 4).take 2) (s.toList.drop 6)
    else if s.toList.length = 7 ∧ 1 ≤ y then
      match tryMD y ((s.toList.drop 4).take 2) (s.toList.drop 6) with
      | some k => some k
      | none => tryMD y ((s.toList.drop 4).take 1) (s.toList.drop 5)
    else if s.toList.length = 6 ∧ 1 ≤ y then
      tryMD y ((s.toList.drop 4).take 1) (s.toList.drop 5)
    else none

def pad2 (n : Nat) : String :=
if n < 10 then "0" ++ toString n else toString n

def pad4 (n : Nat) : String :=
if n < 10 then "000" ++ toString n
else if n < 100 then "00" ++ toString n
else if n < 1000 then "0" ++ toString n
else toString n

/-- `date_obj.strftime("%Y-%m-%d")` on a key produced by `strptimeYMD8`. -/
def formatDateKey (k : Nat) : String :=
pad4 (k / 10000) ++ "-" ++ pad2 (k / 100 % 100) ++ "-" ++ pad2 (k % 100)

/-- `d[k] = v` on a Python dict (`dict.update` entry): replace in place or
append. -/
def fmSet (fm : List (String × YVal)) (k : String) (v : YVal) : List (String × YVal) :=
if fm.any (fun p => p.1 == k) then fm.map (fun p => if p.1 == k then (k, v) else p)
else fm ++ [(k, v)]

def fmSetMany (fm : List (String × YVal)) (kvs : List (String × YVal)) :
    List (String × YVal) :=
kvs.foldl (fun acc p => fmSet acc p.1 p.2) fm

/-- The trailing `if published_date: updated_frontmatter['published_date'] = ...`
block of `parse_note`. -/
def applyPublishedDate (base : List (String × YVal)) (pd : Option YVal) :
    List (String × YVal) :=
match pd with
| some pv => if pv.truthy then fmSet base "published_date" pv else base
| none => base

/-- The `updated_frontmatter.update({...})` block of `parse_note`, followed
by the conditional `published_date` restore. -/
def buildUpdatedFrontmatter (fm : List (String × YVal)) (info : VideoInfo)
    (loc : YVal) (dateKey : Nat) : List (String × YVal) :=
let channel_id := (info.channel_id).getD ""
let thumbnail := (info.thumbnail).getD ""
let base := fmSetMany fm
  [("title", .str ((info.title).getD "")),
   ("duration", .int ((info.duration).getD 0)),
   ("date", .other),
   ("upload_date", .str (formatDateKey dateKey)),
   ("watched_on_date", .nullV),
   ("scope", .str "youtube"),
   ("watched", .bool false),
   ("cache", (fmGet fm "cache").getD (.bool true)),
   ("tags", .listV ["inbox"]),
   ("class", .listV ["video", "youtube", "content", "resource"]),
   ("type", .str "video"),
   ("topics", .listV []),
   ("url",
     match loc with
     | .str v => .str ("https://www.youtube.com/watch?v=" ++ v)
     | _ => .other),
   ("thumbnail", .str thumbnail),
   ("channel", .str ((info.channel).getD ((info.uploader).getD ""))),
   ("channel_id", .str channel_id),
   ("channel_url", .str (if channel_id == "" then ""
     else "https://www.youtube.com/channel/" ++ channel_id)),
   ("channel_feed", .str (if channel_id == "" then ""
     else "https://www.youtube.com/feeds/videos.xml?channel_id=" ++ channel_id))]
applyPublishedDate base (fmGet fm "published_date")

/-- `capture_youtube.parse_note`: `None` on a falsy locator or failed
metadata fetch; an unparsable `upload_date` raises (also `none` here); on
success the updated frontmatter and the thumbnail body snippet. -/
def parse_note_youtube (info? : Option VideoInfo) (fm : List (String × YVal)) :
    Option (List (String × YVal) × String) :=
match fmGet fm "locator" with
| none => none
| some loc =>
    if loc.truthy then
      match info? with
      | none => none
      | some info =>
          match strptimeYMD8 ((info.upload_date).getD "") with
          | none => none
          | some dateKey =>
              some (buildUpdatedFrontmatter fm info loc dateKey,
                "\n![thumbnail](" ++ (info.thumbnail).getD "" ++ ")\n")
    else none

def infoW : VideoInfo :=
  { title := some "T", channel := some "C", uploader := none,
    channel_id := some "cid", upload_date := some "20240102",
    duration := some 60, thumbnail := some "http://t" }

def fmW : List (String × YVal) := [("locator", .str "vid1")]

def fm2W : List (String × YVal) :=
((parse_note_youtube (some infoW) fmW).getD ([], "")).1

def bodyW : String :=
((parse_note_youtube (some infoW) fmW).getD ([], "")).2

/-! ## Theorems -/

/-- `(a ++ b).toList` distributes over append (strings are their char lists). -/
theorem toList_append (a b : String) : (a ++ b).toList = a.toList ++ b.toList :=
String.data_append a b

/-- A string written as `pre ++ (pat ++ post)` contains `pat`. -/
theorem strContains_of_eq (hay pre pat post : String) (h : hay = pre ++ (pat ++ post)) :
    strContains hay pat = true := by
  apply decide_eq_true
  subst h
  exact ⟨pre.toList, post.toList, by
    rw [toList_append, toList_append, List.append_assoc]⟩

/-- The pattern `"locator: " ++ locator` occurs in every rendered template. -/
theorem locator_infix_noteContent (sc : Scope) (noteId locator tagsYaml subreddit : String) :
    strContains (noteContent sc noteId locator tagsYaml subreddit)
      ("locator: " ++ locator) = true := by
  cases sc
  case reddit =>
    exact strContains_of_eq _ ("---\nid: " ++ noteId ++ "\n") _
      ("\nsubreddit: " ++ subreddit ++ "\nparsed: false\nscope: reddit\n" ++ tagsYaml ++ "\n---\n")
      (by simp only [noteContent, String.append_assoc])
  case youtube =>
    exact strContains_of_eq _ ("---\nid: " ++ noteId ++ "\n") _
      ("\nparsed: false\nscope: " ++ scopeName Scope.youtube ++ "\n" ++ tagsYaml ++ "\n---\n")
      (by simp only [noteContent, String.append_assoc])
  case github =>
    exact strContains_of_eq _ ("---\nid: " ++ noteId ++ "\n") _
      ("\nparsed: false\nscope: " ++ scopeName Scope.github ++ "\n" ++ tagsYaml ++ "\n---\n")
      (by simp only [noteContent, String.append_assoc])
  case steam =>
    exact strContains_of_eq _ ("---\nid: " ++ noteId ++ "\n") _
      ("\nparsed: false\nscope: " ++ scopeName Scope.steam ++ "\n" ++ tagsYaml ++ "\n---\n")
      (by simp only [noteContent, String.append_assoc])
  case hackernews =>
    exact strContains_of_eq _ ("---\nid: " ++ noteId ++ "\n") _
      ("\nparsed: false\nscope: " ++ scopeName Scope.hackernews ++ "\n" ++ tagsYaml ++ "\n---\n")
      (by simp only [noteContent, String.append_assoc])

/-- After a create that appended a fresh note, the scan finds that note. -/
theorem check_existing_after_create (sc : Scope) (dir : List MdFile)
    (locator noteId tagsYaml subreddit : String)
    (h : check_existing_note locator dir = none) :
    check_existing_note locator
        (dir ++ [⟨noteId ++ ".md", noteContent sc noteId locator tagsYaml subreddit⟩])
      = some (noteId ++ ".md") := by
  have hfind : dir.find? (fun f => strContains f.content ("locator: " ++ locator)) = none :=
    Option.map_eq_none'.mp h
  unfold check_existing_note
  rw [List.find?_append, hfind]
  simp [List.find?, locator_infix_noteContent]

/--
C2: calling note creation twice with the same locator yields exactly one
note: the second call leaves the directory unchanged and returns the first
call's path.
-/
theorem c2_create_idempotent (sc : Scope) (dir : List MdFile)
    (locator id1 id2 tags1 tags2 sub1 sub2 : String) :
    (create_initial_note sc (create_initial_note sc dir locator id1 tags1 sub1).1
        locator id2 tags2 sub2).1
      = (create_initial_note sc dir locator id1 tags1 sub1).1 ∧
    (create_initial_note sc (create_initial_note sc dir locator id1 tags1 sub1).1
        locator id2 tags2 sub2).2
      = (create_initial_note sc dir locator id1 tags1 sub1).2 := by
  cases h : check_existing_note locator dir with
  | some p =>
      constructor <;> simp [create_initial_note, h]
  | none =>
      have h2 := check_existing_after_create sc dir locator id1 tags1 sub1 h
      constructor <;> simp [create_initial_note, h, h2]

/--
C6: when every item descriptor in a season directory already carries a
sequence (episode) field, the non-forced reindex entry point performs no
writes and leaves every descriptor unchanged.
-/
theorem c6_reindex_noop (dir : List NfoFile)
    (h : ∀ f ∈ episodeNfoFiles dir, strContains f.content "<episode>" = true) :
    reindexSeason dir false = dir := by
  unfold reindexSeason
  by_cases he : (episodeNfoFiles dir).isEmpty
  · rw [if_pos he]
  · rw [if_neg he]
    have hn : needsReindexing dir = false := by
      unfold needsReindexing
      rw [List.any_eq_false]
      intro f hf
      simp [h f hf]
    simp [hn]

/-- Two descriptors whose stored episode numbers disagree with air-date
order: the non-forced entry still changes nothing. -/
theorem c6_reindex_noop_witness :
    (∀ f ∈ episodeNfoFiles
        [⟨"a.nfo", "<season>2023</season>\n    <episode>2</episode>\n<aired>2023-01-01</aired>"⟩,
         ⟨"b.nfo", "<season>2023</season>\n    <episode>1</episode>\n<aired>2023-05-01</aired>"⟩],
      strContains f.content "<episode>" = true) ∧
    reindexSeason
        [⟨"a.nfo", "<season>2023</season>\n    <episode>2</episode>\n<aired>2023-01-01</aired>"⟩,
         ⟨"b.nfo", "<season>2023</season>\n    <episode>1</episode>\n<aired>2023-05-01</aired>"⟩]
        false
      = [⟨"a.nfo", "<season>2023</season>\n    <episode>2</episode>\n<aired>2023-01-01</aired>"⟩,
         ⟨"b.nfo", "<season>2023</season>\n    <episode>1</episode>\n<aired>2023-05-01</aired>"⟩] :=
  ⟨by decide, c6_reindex_noop _ (by decide)⟩

theorem infoLe_trans (a b c : EpisodeInfo) :
    infoLe a b = true → infoLe b c = true → infoLe a c = true := by
  simp only [infoLe, decide_eq_true_eq]
  omega

theorem infoLe_total (a b : EpisodeInfo) : (infoLe a b || infoLe b a) = true := by
  simp only [infoLe, Bool.or_eq_true, decide_eq_true_eq]
  omega

/-- Sorting the extracted data of a season directory that is a permutation
of a strictly date-sorted reference list recovers exactly that list. -/
theorem sortedEpisodeData_eq (dir : List NfoFile) (ref : List EpisodeInfo)
    (hperm : (episodeData dir).Perm ref)
    (hsorted : ref.Pairwise (fun x y => x.airedDate < y.airedDate)) :
    sortedEpisodeData dir = ref := by
  have hperm2 : (sortedEpisodeData dir).Perm ref :=
    (List.mergeSort_perm (episodeData dir) infoLe).trans hperm
  have hle : (sortedEpisodeData dir).Pairwise (fun a b => infoLe a b = true) :=
    List.sorted_mergeSort infoLe_trans infoLe_total (episodeData dir)
  have hnd_ref : (ref.map (·.airedDate)).Nodup := by
    rw [List.Nodup, List.pairwise_map]
    exact hsorted.imp (fun h => Nat.ne_of_lt h)
  have hnd_s : ((sortedEpisodeData dir).map (·.airedDate)).Nodup :=
    ((hperm2.map (·.airedDate)).nodup_iff).mpr hnd_ref
  have hne_s : (sortedEpisodeData dir).Pairwise (fun a b => a.airedDate ≠ b.airedDate) := by
    rw [List.Nodup, List.pairwise_map] at hnd_s
    exact hnd_s
  have hlt_s : (sortedEpisodeData dir).Pairwise (fun x y => x.airedDate < y.airedDate) := by
    refine (hle.and hne_s).imp ?_
    intro a b hab
    have h1 := hab.1
    simp only [infoLe, decide_eq_true_eq] at h1
    exact Nat.lt_of_le_of_ne h1 hab.2
  haveI : IsAntisymm EpisodeInfo (fun x y => x.airedDate < y.airedDate) :=
    ⟨fun a b h1 h2 => absurd (h1.trans h2) (Nat.lt_irrefl _)⟩
  exact List.eq_of_perm_of_sorted hperm2 hlt_s hsorted

/--
C4: for a season directory whose descriptors are, in some enumeration
order, a permutation of a reference list strictly sorted by air-date,
`forceReindex` assigns episode numbers 1..N to the descriptors in that
air-date order; and in every directory, each descriptor with an absent or
unparsable air date receives a larger number than every descriptor with a
parsable date.
-/
theorem c4_force_reindex_orders :
    (∀ (dir : List NfoFile) (ref : List EpisodeInfo),
        (episodeData dir).Perm ref →
        ref.Pairwise (fun x y => x.airedDate < y.airedDate) →
        episodeAssignment dir = ref.zip (List.range' 1 ref.length)) ∧
    (∀ (dir : List NfoFile) (p q : EpisodeInfo × Nat),
        p ∈ episodeAssignment dir → q ∈ episodeAssignment dir →
        p.1.airedDate < datetimeMaxKey → q.1.airedDate = datetimeMaxKey →
        p.2 < q.2) := by
  constructor
  · intro dir ref h1 h2
    have h3 := sortedEpisodeData_eq dir ref h1 h2
    unfold episodeAssignment
    rw [h3]
  · intro dir p q hp hq hpk hqk
    have hle : (sortedEpisodeData dir).Pairwise (fun a b => infoLe a b = true) :=
      List.sorted_mergeSort infoLe_trans infoLe_total (episodeData dir)
    unfold episodeAssignment at hp hq
    obtain ⟨i, hi, hip⟩ := List.mem_iff_getElem.mp hp
    obtain ⟨j, hj, hjq⟩ := List.mem_iff_getElem.mp hq
    have hzl : ∀ k, k < ((sortedEpisodeData dir).zip
        (List.range' 1 (sortedEpisodeData dir).length)).length →
        k < (sortedEpisodeData dir).length := by
      intro k hk
      rw [List.length_zip, List.length_range'] at hk
      omega
    have hi2 := hzl i hi
    have hj2 := hzl j hj
    rw [List.getElem_zip] at hip hjq
    have hip1 : p.1 = (sortedEpisodeData dir)[i] := by rw [← hip]
    have hip2 : p.2 = 1 + 1 * i := by
      rw [← hip]
      exact List.getElem_range' i _
    have hjq1 : q.1 = (sortedEpisodeData dir)[j] := by rw [← hjq]
    have hjq2 : q.2 = 1 + 1 * j := by
      rw [← hjq]
      exact List.getElem_range' j _
    rw [hip1] at hpk
    rw [hjq1] at hqk
    rw [hip2, hjq2]
    have hij : i < j := by
      rcases Nat.lt_trichotomy i j with h | h | h
      · exact h
      · subst h; rw [hqk] at hpk; exact absurd hpk (Nat.lt_irrefl _)
      · have := (List.pairwise_iff_getElem.mp hle) j i hj2 hi2 h
        simp only [infoLe, decide_eq_true_eq] at this
        rw [hqk] at this
        exact absurd (Nat.lt_of_le_of_lt this hpk) (Nat.lt_irrefl _)
    omega

/-- Air-dates 2023-05-01 and 2023-01-01 in enumeration order: forced
reindexing assigns sequence 2 and 1 respectively, and an unparsable date
sorts after a parsable one. -/
theorem c4_force_reindex_orders_witness :
    episodeAssignment
        [⟨"a.nfo", "<season>2023</season>\n<aired>2023-05-01</aired>"⟩,
         ⟨"b.nfo", "<season>2023</season>\n<aired>2023-01-01</aired>"⟩]
      = ([⟨"b.nfo", 20230101, "<season>2023</season>\n<aired>2023-01-01</aired>"⟩,
          ⟨"a.nfo", 20230501, "<season>2023</season>\n<aired>2023-05-01</aired>"⟩] :
            List EpisodeInfo).zip
          (List.range' 1 ([⟨"b.nfo", 20230101, "<season>2023</season>\n<aired>2023-01-01</aired>"⟩,
          ⟨"a.nfo", 20230501, "<season>2023</season>\n<aired>2023-05-01</aired>"⟩] :
            List EpisodeInfo).length) ∧
    ((⟨"d.nfo", 20230101, "<aired>2023-01-01</aired>"⟩, 1) :
        EpisodeInfo × Nat).2 <
      ((⟨"c.nfo", 100000000, "<aired>zzz</aired>"⟩, 2) : EpisodeInfo × Nat).2 :=
  ⟨c4_force_reindex_orders.1
      [⟨"a.nfo", "<season>2023</season>\n<aired>2023-05-01</aired>"⟩,
       ⟨"b.nfo", "<season>2023</season>\n<aired>2023-01-01</aired>"⟩]
      [⟨"b.nfo", 20230101, "<season>2023</season>\n<aired>2023-01-01</aired>"⟩,
       ⟨"a.nfo", 20230501, "<season>2023</season>\n<aired>2023-05-01</aired>"⟩]
      (by decide) (by decide),
   by
    have hEq := c4_force_reindex_orders.1
      [⟨"c.nfo", "<aired>zzz</aired>"⟩, ⟨"d.nfo", "<aired>2023-01-01</aired>"⟩]
      [⟨"d.nfo", 20230101, "<aired>2023-01-01</aired>"⟩,
       ⟨"c.nfo", 100000000, "<aired>zzz</aired>"⟩]
      (by decide) (by decide)
    exact c4_force_reindex_orders.2
      [⟨"c.nfo", "<aired>zzz</aired>"⟩, ⟨"d.nfo", "<aired>2023-01-01</aired>"⟩]
      (⟨"d.nfo", 20230101, "<aired>2023-01-01</aired>"⟩, 1)
      (⟨"c.nfo", 100000000, "<aired>zzz</aired>"⟩, 2)
      (by rw [hEq]; decide) (by rw [hEq]; decide) (by decide) (by decide)⟩

theorem removeEp_nil : removeEpisodeTagAux [] = [] := by
  rw [removeEpisodeTagAux.eq_def]
  decide

theorem removeEp_strip {cs rest : List Char} (h : stripEpisodeAt cs = some rest) :
    removeEpisodeTagAux cs = removeEpisodeTagAux rest := by
  rw [removeEpisodeTagAux.eq_def]
  split
  · next r heq =>
      rw [h] at heq
      cases heq
      rfl
  · next heq =>
      rw [h] at heq
      cases heq

theorem removeEp_cons_none {c : Char} {cs : List Char}
    (h : stripEpisodeAt (c :: cs) = none) :
    removeEpisodeTagAux (c :: cs) = c :: removeEpisodeTagAux cs := by
  rw [removeEpisodeTagAux.eq_def]
  split
  · next r heq =>
      rw [h] at heq
      cases heq
  · rfl

/-- A suffix of the tail is a suffix of the list. -/
theorem suffix_of_suffix_cons {s cs : List Char} {c : Char} (h : s <:+ cs) :
    s <:+ c :: cs := by
  obtain ⟨t, ht⟩ := h
  exact ⟨c :: t, by simp [ht]⟩

/-- The scan walks over a region in which no match starts. -/
theorem removeEp_append_of_no_match (a rest : List Char)
    (h : ∀ s, s <:+ a → s ≠ [] → stripEpisodeAt (s ++ rest) = none) :
    removeEpisodeTagAux (a ++ rest) = a ++ removeEpisodeTagAux rest := by
  induction a with
  | nil => simp
  | cons c a2 ih =>
      have h1 : stripEpisodeAt ((c :: a2) ++ rest) = none :=
        h (c :: a2) (List.suffix_refl _) (by simp)
      rw [List.cons_append] at h1 ⊢
      rw [removeEp_cons_none h1]
      rw [ih (fun s hs hne => h s (suffix_of_suffix_cons hs) hne)]
      rfl

/-- The scan leaves a match-free list unchanged. -/
theorem removeEp_eq_self (b : List Char)
    (h : ∀ s, s <:+ b → stripEpisodeAt s = none) :
    removeEpisodeTagAux b = b := by
  induction b with
  | nil => exact removeEp_nil
  | cons c b2 ih =>
      rw [removeEp_cons_none (h _ (List.suffix_refl _))]
      rw [ih (fun s hs => h s (suffix_of_suffix_cons hs))]

theorem episodeOpenTag_eq : episodeTagHead = "\n    ".toList ++ "<episode>".toList := by decide

/-- A list with no `<episode>` occurrence admits no match. -/
theorem stripEpisodeAt_none_of_no_ep {s : List Char}
    (h : ¬ ("<episode>".toList <:+: s)) : stripEpisodeAt s = none := by
  cases hs : stripEpisodeAt s with
  | none => rfl
  | some rest =>
      obtain ⟨ds, _, _, he⟩ := stripEpisodeAt_shape hs
      exact absurd (by
        rw [he, episodeOpenTag_eq]
        exact ⟨"\n    ".toList, ds ++ episodeTagClose ++ rest, by simp [List.append_assoc]⟩) h

theorem takeWhile_all_append {p : Char → Bool} {l1 l2 : List Char} {x : Char}
    (h1 : ∀ c ∈ l1, p c = true) (h2 : p x = false) :
    (l1 ++ x :: l2).takeWhile p = l1 := by
  induction l1 with
  | nil => simp [List.takeWhile, h2]
  | cons c t ih =>
      rw [List.cons_append, List.takeWhile_cons, h1 c (by simp)]
      simp [ih (fun d hd => h1 d (by simp [hd]))]

theorem dropWhile_all_append {p : Char → Bool} {l1 l2 : List Char} {x : Char}
    (h1 : ∀ c ∈ l1, p c = true) (h2 : p x = false) :
    (l1 ++ x :: l2).dropWhile p = x :: l2 := by
  induction l1 with
  | nil => simp [List.dropWhile, h2]
  | cons c t ih =>
      rw [List.cons_append, List.dropWhile_cons, h1 c (by simp)]
      exact ih (fun d hd => h1 d (by simp [hd]))

theorem stripEpisodeAt_eq (cs : List Char) :
    stripEpisodeAt cs = (cs.dropPrefix? episodeTagHead).bind (fun rest =>
      if (rest.takeWhile (·.isDigit)).isEmpty then none
      else (rest.dropWhile (·.isDigit)).dropPrefix? episodeTagClose) := by
  unfold stripEpisodeAt
  cases cs.dropPrefix? episodeTagHead <;> rfl

/-- At the head of the written pattern the match consumes exactly the
pattern. -/
theorem stripEpisodeAt_of_pattern {ds : List Char} (b : List Char)
    (hds : ds ≠ []) (hdig : ∀ c ∈ ds, c.isDigit = true) :
    stripEpisodeAt ((episodeTagHead ++ ds ++ episodeTagClose) ++ b) = some b := by
  have h1 : ((episodeTagHead ++ ds ++ episodeTagClose) ++ b).dropPrefix? episodeTagHead
      = some (ds ++ (episodeTagClose ++ b)) := by
    rw [dropPrefixQ_eq_some]
    simp [List.append_assoc]
  rw [stripEpisodeAt_eq, h1, Option.some_bind]
  have hcl0 : episodeTagClose = '<' :: "/episode>".toList := by decide
  have hcl : episodeTagClose ++ b = '<' :: ("/episode>".toList ++ b) := by
    rw [hcl0]
    rfl
  have hlt : ('<').isDigit = false := by decide
  rw [hcl, takeWhile_all_append hdig hlt, dropWhile_all_append hdig hlt]
  have hde : (ds.isEmpty) = false := by
    cases ds with
    | nil => exact absurd rfl hds
    | cons c t => rfl
  rw [hde]
  simp only [Bool.false_eq_true, if_false]
  rw [dropPrefixQ_eq_some]
  rw [← hcl]

theorem prefix_of_append_of_le {p s t : List Char} (h : p <+: s ++ t)
    (hl : p.length ≤ s.length) : p <+: s := by
  rw [List.prefix_iff_eq_take, List.take_append_eq_append_take] at h
  have h0 : p.length - s.length = 0 := by omega
  rw [h0, List.take_zero, List.append_nil] at h
  rw [h]
  exact List.take_prefix _ _

theorem prefix_long_of_prefix_append {p s t : List Char} (h : p <+: s ++ t)
    (hl : s.length < p.length) : s <+: p := by
  obtain ⟨u, hu⟩ := h
  have h1 : (p ++ u).take s.length = p.take s.length := by
    rw [List.take_append_eq_append_take]
    have h0 : s.length - p.length = 0 := by omega
    rw [h0, List.take_zero, List.append_nil]
  have h2 : (s ++ t).take s.length = s := by
    rw [List.take_append_eq_append_take]
    simp
  rw [hu, h2] at h1
  exact List.prefix_iff_eq_take.mpr h1

theorem seasonSub_nil (n : Nat) : seasonSubAux n [] = [] := by
  rw [seasonSubAux.eq_def]

theorem seasonSub_cons_not {n : Nat} {c : Char} {cs : List Char}
    (h : seasonOpen.isPrefixOf (c :: cs) = false) :
    seasonSubAux n (c :: cs) = c :: seasonSubAux n cs := by
  rw [seasonSubAux.eq_def]
  simp [h]

/-- `re.sub` on the season pattern is the identity when no `<season>`
occurs. -/
theorem seasonSub_eq_self (n : Nat) (cs : List Char) (h : ¬ (seasonOpen <:+: cs)) :
    seasonSubAux n cs = cs := by
  induction cs with
  | nil => exact seasonSub_nil n
  | cons c cs2 ih =>
      have h1 : seasonOpen.isPrefixOf (c :: cs2) = false := by
        cases hp : seasonOpen.isPrefixOf (c :: cs2)
        · rfl
        · exact absurd (List.isPrefixOf_iff_prefix.mp hp).isInfix h
      rw [seasonSub_cons_not h1, ih (fun hi => h (List.infix_cons hi))]

theorem episodeTagHead_no_inner_newline :
    ∀ k, 1 ≤ k → k < 14 → (episodeTagHead.drop k).head? ≠ some '\n' := by decide

/-- No removal match can start strictly inside a region with no
`<episode>` occurrence that is followed by the written pattern. -/
theorem stripEpisodeAt_none_in_left {a ds b : List Char}
    (hepA : ¬ ("<episode>".toList <:+: a)) :
    ∀ s, s <:+ a → s ≠ [] →
      stripEpisodeAt (s ++ ((episodeTagHead ++ ds ++ episodeTagClose) ++ b)) = none := by
  intro s hs hne
  cases hstrip : stripEpisodeAt (s ++ ((episodeTagHead ++ ds ++ episodeTagClose) ++ b)) with
  | none => rfl
  | some r =>
      exfalso
      obtain ⟨ds2, hds2, hdig2, he⟩ := stripEpisodeAt_shape hstrip
      have hpre : episodeTagHead <+: s ++ ((episodeTagHead ++ ds ++ episodeTagClose) ++ b) := by
        rw [he]
        exact ⟨ds2 ++ episodeTagClose ++ r, by simp [List.append_assoc]⟩
      by_cases hlen : episodeTagHead.length ≤ s.length
      · have h2 : episodeTagHead <+: s := prefix_of_append_of_le hpre hlen
        have h3 : "<episode>".toList <:+: episodeTagHead := by decide
        exact hepA ((h3.trans h2.isInfix).trans hs.isInfix)
      · push_neg at hlen
        have h2 : s <+: episodeTagHead := prefix_long_of_prefix_append hpre hlen
        have h3 : episodeTagHead = s ++ episodeTagHead.drop s.length := by
          conv_lhs => rw [← List.take_append_drop s.length episodeTagHead]
          rw [← List.prefix_iff_eq_take.mp h2]
        have h4 : episodeTagHead.drop s.length <+:
            (episodeTagHead ++ ds ++ episodeTagClose) ++ b := by
          nth_rewrite 1 [h3] at hpre
          exact (List.prefix_append_right_inj s).mp hpre
        have hr2ne : episodeTagHead.drop s.length ≠ [] := by
          rw [← List.length_pos, List.length_drop]
          omega
        have hx : (((episodeTagHead ++ ds ++ episodeTagClose) ++ b)).head? = some '\n' := by
          rw [List.append_assoc, List.append_assoc,
            List.head?_append_of_ne_nil episodeTagHead (by decide)]
          decide
        have hr2head : (episodeTagHead.drop s.length).head? = some '\n' := by
          obtain ⟨u, hu⟩ := h4
          rw [← hu, List.head?_append_of_ne_nil _ hr2ne] at hx
          exact hx
        have hk1 : 1 ≤ s.length := by
          rw [Nat.one_le_iff_ne_zero]
          intro h0
          exact hne (List.length_eq_zero.mp h0)
        have hk2 : s.length < 14 := by
          have : episodeTagHead.length = 14 := by decide
          omega
        exact episodeTagHead_no_inner_newline s.length hk1 hk2 hr2head

/--
C10: on an item descriptor whose content has no season field, reindexing
deletes the existing episode sequence tag and inserts no new one (the new
tag is only placed after a season tag), so the descriptor ends with no
sequence field at all.
-/
theorem c10_no_season_drops_sequence (a b ds : List Char) (n : Nat)
    (hds : ds ≠ []) (hdig : ∀ c ∈ ds, c.isDigit = true)
    (hseason : ¬ (seasonOpen <:+: (a ++ (episodeTagHead ++ ds ++ episodeTagClose) ++ b)))
    (hseasonAB : ¬ (seasonOpen <:+: (a ++ b)))
    (hepAB : ¬ ("<episode>".toList <:+: (a ++ b))) :
    addEpisodeTag (String.mk (a ++ (episodeTagHead ++ ds ++ episodeTagClose) ++ b)) n
      = String.mk (a ++ b) ∧
    strContains
      (addEpisodeTag (String.mk (a ++ (episodeTagHead ++ ds ++ episodeTagClose) ++ b)) n)
      "<episode>" = false := by
  have hepA : ¬ ("<episode>".toList <:+: a) := fun hi =>
    hepAB (hi.trans ⟨[], b, by simp⟩)
  have hepB : ¬ ("<episode>".toList <:+: b) := fun hi =>
    hepAB (hi.trans ⟨a, [], by simp⟩)
  have hrem : removeEpisodeTagAux (a ++ (episodeTagHead ++ ds ++ episodeTagClose) ++ b)
      = a ++ b := by
    rw [List.append_assoc]
    rw [removeEp_append_of_no_match a _ (stripEpisodeAt_none_in_left hepA)]
    rw [removeEp_strip (stripEpisodeAt_of_pattern b hds hdig)]
    rw [removeEp_eq_self b (fun s hs =>
      stripEpisodeAt_none_of_no_ep (fun hi => hepB (hi.trans hs.isInfix)))]
  have hmain : addEpisodeTag
      (String.mk (a ++ (episodeTagHead ++ ds ++ episodeTagClose) ++ b)) n
      = String.mk (a ++ b) := by
    show String.mk (seasonSubAux n (removeEpisodeTagAux
      (a ++ (episodeTagHead ++ ds ++ episodeTagClose) ++ b))) = String.mk (a ++ b)
    rw [hrem, seasonSub_eq_self n _ hseasonAB]
  refine ⟨hmain, ?_⟩
  rw [hmain]
  exact decide_eq_false hepAB

/-- A descriptor with an episode tag but no season tag loses the tag and
gains none. -/
theorem c10_no_season_drops_sequence_witness :
    addEpisodeTag (String.mk ("<title>T</title>".toList ++
        (episodeTagHead ++ ['3'] ++ episodeTagClose) ++ "\n<aired>2023-01-01</aired>".toList)) 1
      = String.mk ("<title>T</title>".toList ++ "\n<aired>2023-01-01</aired>".toList) ∧
    strContains
      (addEpisodeTag (String.mk ("<title>T</title>".toList ++
        (episodeTagHead ++ ['3'] ++ episodeTagClose) ++ "\n<aired>2023-01-01</aired>".toList)) 1)
      "<episode>" = false :=
  c10_no_season_drops_sequence "<title>T</title>".toList "\n<aired>2023-01-01</aired>".toList
    ['3'] 1 (by decide) (by decide) (by decide) (by decide) (by decide)

theorem mediaExt_dot : ∀ ext ∈ mediaExts, ∃ m, ext.toList = '.' :: m := by
  intro ext h
  simp only [mediaExts, List.mem_cons, List.not_mem_nil, or_false] at h
  rcases h with rfl | rfl | rfl | rfl | rfl | rfl
  · exact ⟨"mp4".toList, by decide⟩
  · exact ⟨"mkv".toList, by decide⟩
  · exact ⟨"webm".toList, by decide⟩
  · exact ⟨"mp3".toList, by decide⟩
  · exact ⟨"m4a".toList, by decide⟩
  · exact ⟨"opus".toList, by decide⟩

theorem strStartsWith_append_dot (s ext : String) (h : ∃ m, ext.toList = '.' :: m) :
    strStartsWith (s ++ ext) (s ++ ".") = true := by
  obtain ⟨m, hm⟩ := h
  unfold strStartsWith
  rw [List.isPrefixOf_iff_prefix, toList_append, toList_append, hm]
  have hdot : ".".toList = ['.'] := by decide
  rw [hdot]
  exact (List.prefix_append_right_inj s.toList).mpr ⟨m, rfl⟩

theorem mem_allMediaFiles {file_id : String} {fs : List CFile} {m : CFile}
    (h : m ∈ allMediaFiles file_id fs) :
    m ∈ fs ∧ ∃ ext ∈ mediaExts, m.name = file_id ++ ext := by
  simp only [allMediaFiles, List.mem_flatMap, List.mem_append, List.mem_filter,
    Bool.and_eq_true, beq_iff_eq] at h
  obtain ⟨ext, hext, hcase⟩ := h
  rcases hcase with ⟨hmem, _, hname⟩ | ⟨hmem, hname⟩ <;>
    exact ⟨hmem, ext, hext, hname⟩

theorem deleteLoop_removed (file_id : String) (ms : List CFile)
    (hm : ∀ m ∈ ms, ∃ ext ∈ mediaExts, m.name = file_id ++ ext) :
    ∀ fs f, f ∈ fs → f ∉ (deleteLoop file_id ms fs).1 →
      strStartsWith f.name (file_id ++ ".") = true ∧ ∃ m ∈ ms, m.dir = f.dir := by
  induction ms with
  | nil => intro fs f hf hnf; exact absurd hf hnf
  | cons m ms ih =>
      intro fs f hf hnf
      rw [deleteLoop] at hnf
      by_cases hc : fs.contains m
      · rw [if_pos hc] at hnf
        by_cases hf2 : f ∈ deleteAuxIn file_id m.dir (fs.erase m)
        · obtain ⟨h1, mm, hmm, hdir⟩ :=
            ih (fun x hx => hm x (List.mem_cons_of_mem _ hx)) _ f hf2 hnf
          exact ⟨h1, mm, List.mem_cons_of_mem _ hmm, hdir⟩
        · by_cases hfm : f = m
          · subst hfm
            obtain ⟨ext, hext, hname⟩ := hm f (List.mem_cons_self _ _)
            refine ⟨?_, f, List.mem_cons_self _ _, rfl⟩
            rw [hname]
            exact strStartsWith_append_dot _ _ (mediaExt_dot ext hext)
          · have hfe : f ∈ fs.erase m := (List.mem_erase_of_ne hfm).mpr hf
            have haux : isAuxDeleted file_id m.dir f = true := by
              by_contra hbx
              apply hf2
              simp only [deleteAuxIn, List.mem_filter, hfe, true_and,
                Bool.not_eq_true']
              exact Bool.not_eq_true _ ▸ (Bool.eq_false_iff.mpr hbx)
            simp only [isAuxDeleted, Bool.and_eq_true, beq_iff_eq] at haux
            exact ⟨haux.1.1.2, m, List.mem_cons_self _ _, haux.1.1.1.symm⟩
      · rw [if_neg hc] at hnf
        exact absurd hf hnf

/--
C5: evicting a locator deletes only media files named `locator + ext` plus
co-located files named `locator.*`, in directories where a media file of
that locator was matched; contrapositively, every file of another locator
and every file in an unmatched directory survives.
-/
theorem c5_eviction_isolation (file_id : String) (fs : List CFile) :
    ∀ f ∈ fs, f ∉ (delete_cached_file file_id fs).1 →
      strStartsWith f.name (file_id ++ ".") = true ∧
      ∃ m ∈ allMediaFiles file_id fs, m.dir = f.dir := by
  intro f hf hnf
  unfold delete_cached_file at hnf
  by_cases he : (allMediaFiles file_id fs).isEmpty
  · rw [if_pos he] at hnf
    exact absurd hf hnf
  · rw [if_neg he] at hnf
    exact deleteLoop_removed file_id _ (fun m hm2 => (mem_allMediaFiles hm2).2) fs f hf hnf

/-- Deleting locator `abc` removes its subtitle sidecar in the matched
season directory. -/
theorem c5_eviction_isolation_witness :
    strStartsWith "abc.en.srt" ("abc" ++ ".") = true ∧
    ∃ m ∈ allMediaFiles "abc"
        [⟨["ch", "2020"], "abc.mkv"⟩, ⟨["ch", "2020"], "abc.en.srt"⟩,
         ⟨["ch", "2020"], "xyz.mp4"⟩],
      m.dir = ["ch", "2020"] :=
  c5_eviction_isolation "abc"
    [⟨["ch", "2020"], "abc.mkv"⟩, ⟨["ch", "2020"], "abc.en.srt"⟩,
     ⟨["ch", "2020"], "xyz.mp4"⟩]
    ⟨["ch", "2020"], "abc.en.srt"⟩ (by decide) (by decide)

/--
C3: computed from the one snapshot taken at the start of the pass, the
eviction selection and the download selection are disjoint: no locator is
both deleted and downloaded in the same run.
-/
theorem c3_evict_fetch_disjoint (cachedIds : List String) (D : List (YVal × YVal)) :
    ∀ s, s ∈ evictIds cachedIds D → YVal.str s ∉ fetchKeys cachedIds D := by
  intro s hs hmem
  simp only [evictIds, List.mem_filter] at hs
  simp only [fetchKeys, List.mem_map, List.mem_filter] at hmem
  obtain ⟨p, ⟨_, hcond⟩, hkey⟩ := hmem
  rw [hkey] at hcond
  simp only [Bool.and_eq_true, Bool.not_eq_true'] at hcond
  have : cachedIds.contains s = true := List.elem_eq_true_of_mem hs.1
  rw [this] at hcond
  exact Bool.false_ne_true hcond.2.symm

/-- A cached, undesired locator is selected for eviction and not for
download. -/
theorem c3_evict_fetch_disjoint_witness :
    YVal.str "abc" ∉ fetchKeys ["abc"] [(YVal.str "abc", YVal.bool false)] :=
  c3_evict_fetch_disjoint ["abc"] [(YVal.str "abc", YVal.bool false)] "abc" (by decide)

theorem toList_eq_nil_iff {s : String} : s.toList = [] ↔ s = "" := by
  constructor
  · intro h
    cases s with
    | mk d =>
        have hd : d = [] := h
        exact congrArg String.mk hd
  · intro h
    rw [h]
    rfl

theorem videoExt_props : ∀ e ∈ videoExts, ∃ m, e.toList = '.' :: m ∧ m ≠ [] ∧ '.' ∉ m := by
  intro e h
  simp only [videoExts, List.mem_cons, List.not_mem_nil, or_false] at h
  rcases h with rfl | rfl | rfl
  · exact ⟨"mp4".toList, by decide, by decide, by decide⟩
  · exact ⟨"mkv".toList, by decide, by decide, by decide⟩
  · exact ⟨"webm".toList, by decide, by decide, by decide⟩

theorem videoExt_mem_media : ∀ e ∈ videoExts, e ∈ mediaExts := by decide

theorem strLower_videoExt : ∀ e ∈ videoExts, strLower e = e := by decide

theorem mediaExts_contains_videoExt : ∀ e ∈ videoExts, mediaExts.contains e = true := by decide

theorem splitLastDot_no_dot : ∀ {l : List Char}, '.' ∉ l → splitLastDot l = none := by
  intro l
  induction l with
  | nil => intro _; rfl
  | cons c rest ih =>
      intro h
      unfold splitLastDot
      rw [ih (fun hc => h (List.mem_cons_of_mem _ hc))]
      have : ¬(c = '.') := fun he => h (by rw [he]; exact List.mem_cons_self _ _)
      simp [this]

theorem splitLastDot_append (v m : List Char) (hm : '.' ∉ m) :
    splitLastDot (v ++ '.' :: m) = some (v, m) := by
  induction v with
  | nil =>
      rw [List.nil_append]
      unfold splitLastDot
      rw [splitLastDot_no_dot hm]
      simp
  | cons c v2 ih =>
      rw [List.cons_append]
      unfold splitLastDot
      rw [ih]

theorem stem_suffix_append (s e : String) (hs : s.toList ≠ [])
    (he : ∃ m, e.toList = '.' :: m ∧ m ≠ [] ∧ '.' ∉ m) :
    stemOf (s ++ e) = s ∧ lastSuffix (s ++ e) = e := by
  obtain ⟨m, hm, hmne, hmd⟩ := he
  have hsplit : splitLastDot (s ++ e).toList = some (s.toList, m) := by
    rw [toList_append, hm]
    exact splitLastDot_append _ _ hmd
  constructor
  · unfold stemOf
    rw [hsplit]
    simp only [hs, hmne, ne_eq, not_false_iff, and_self, if_true]
    rfl
  · unfold lastSuffix
    rw [hsplit]
    simp only [hs, hmne, ne_eq, not_false_iff, and_self, if_true]
    show String.mk ('.' :: m) = e
    rw [← hm]
    rfl

theorem endsWith_decomp {name e : String} (h : strEndsWith name e = true) :
    ∃ v, name.toList = v ++ e.toList := by
  unfold strEndsWith at h
  rw [List.isPrefixOf_iff_prefix] at h
  obtain ⟨u, hu⟩ := h
  refine ⟨u.reverse, ?_⟩
  have := congrArg List.reverse hu
  rw [List.reverse_append, List.reverse_reverse, List.reverse_reverse] at this
  exact this.symm

/-- `pathlib` stems of nonempty names are nonempty (a name with no usable
suffix, such as `.mp4`, is its own stem). -/
theorem stemOf_toList_ne_nil {name : String} (h : name.toList ≠ []) :
    (stemOf name).toList ≠ [] := by
  unfold stemOf
  cases hs : splitLastDot name.toList with
  | none => exact h
  | some p =>
      show (if p.1 ≠ [] ∧ p.2 ≠ [] then String.mk p.1 else name).toList ≠ []
      by_cases hc : p.1 ≠ [] ∧ p.2 ≠ []
      · rw [if_pos hc]
        exact hc.1
      · rw [if_neg hc]
        exact h

theorem countedVideo_shape {f : CFile} (h : isCountedVideo f = true)
    (hb : ∀ e ∈ videoExts, f.name ≠ e) :
    ∃ e ∈ videoExts, f.name = stemOf f.name ++ e ∧ (stemOf f.name).toList ≠ [] := by
  simp only [isCountedVideo, List.any_eq_true] at h
  obtain ⟨e, he, hends⟩ := h
  obtain ⟨v, hv⟩ := endsWith_decomp hends
  obtain ⟨m, hm, hmne, hmd⟩ := videoExt_props e he
  have hvne : v ≠ [] := by
    intro h0
    rw [h0, List.nil_append] at hv
    apply hb e he
    have h1 : f.name = String.mk e.toList := by
      rw [← hv]
      rfl
    rw [h1]
    rfl
  have hname : f.name = String.mk v ++ e := by
    have h1 : f.name = String.mk (v ++ e.toList) := by
      rw [← hv]
      rfl
    rw [h1]
    have : String.mk e.toList = e := rfl
    rw [← this]
    rfl
  have hstem : stemOf f.name = String.mk v := by
    rw [hname]
    exact (stem_suffix_append (String.mk v) e hvne ⟨m, hm, hmne, hmd⟩).1
  exact ⟨e, he, by rw [hstem, ← hname], by rw [hstem]; exact hvne⟩

/-- Membership in the cached-ids scan. -/
theorem mem_cachedIds {s : String} {fs : List CFile} :
    s ∈ get_youtube_cached_ids fs ↔
    ∃ f ∈ fs, isCountedVideo f = true ∧ stemOf f.name = s := by
  unfold get_youtube_cached_ids
  rw [List.mem_dedup]
  simp only [List.mem_flatMap, List.mem_map, List.mem_filter]
  constructor
  · rintro ⟨ext, hext, f, ⟨⟨hf, hend⟩, hstem⟩⟩
    refine ⟨f, hf, ?_, hstem⟩
    simp only [isCountedVideo, List.any_eq_true]
    exact ⟨ext, hext, hend⟩
  · rintro ⟨f, hf, hcv, hstem⟩
    have h2 := hcv
    simp only [isCountedVideo, List.any_eq_true] at h2
    obtain ⟨ext, hext, hend⟩ := h2
    exact ⟨ext, hext, f, ⟨⟨hf, hend⟩, hstem⟩⟩

theorem mediaExt_props : ∀ ext ∈ mediaExts, ∃ m, ext.toList = '.' :: m ∧ m ≠ [] ∧ '.' ∉ m := by
  intro ext h
  simp only [mediaExts, List.mem_cons, List.not_mem_nil, or_false] at h
  rcases h with rfl | rfl | rfl | rfl | rfl | rfl
  · exact ⟨"mp4".toList, by decide, by decide, by decide⟩
  · exact ⟨"mkv".toList, by decide, by decide, by decide⟩
  · exact ⟨"webm".toList, by decide, by decide, by decide⟩
  · exact ⟨"mp3".toList, by decide, by decide, by decide⟩
  · exact ⟨"m4a".toList, by decide, by decide, by decide⟩
  · exact ⟨"opus".toList, by decide, by decide, by decide⟩

theorem mediaName_stem {id : String} (hid : id.toList ≠ []) {ext : String}
    (hext : ext ∈ mediaExts) : stemOf (id ++ ext) = id :=
(stem_suffix_append id ext hid (mediaExt_props ext hext)).1

/-- A counted video file is never removed by the sidecar loop: its last
suffix is a media extension, which the loop skips. -/
theorem countedVideo_aux_skip {file_id : String} {dirPath : List String} {f : CFile}
    (h : isCountedVideo f = true) : isAuxDeleted file_id dirPath f = false := by
  by_cases hb : ∀ e ∈ videoExts, f.name ≠ e
  · obtain ⟨e, he, hname, hsne⟩ := countedVideo_shape h hb
    have hsuf : lastSuffix f.name = e := by
      rw [hname]
      exact (stem_suffix_append _ e hsne (videoExt_props e he)).2
    unfold isAuxDeleted
    rw [hsuf, strLower_videoExt e he, mediaExts_contains_videoExt e he]
    simp
  · push_neg at hb
    obtain ⟨e, he, hname⟩ := hb
    have hlast : auxExts.contains (strLower (lastSuffix f.name)) = false := by
      rw [hname]
      simp only [videoExts, List.mem_cons, List.not_mem_nil, or_false] at he
      rcases he with rfl | rfl | rfl <;> decide
    unfold isAuxDeleted
    rw [hlast, Bool.and_false]

theorem deleteLoop_preserves (id : String) (hid : id.toList ≠ []) (ms : List CFile)
    (hm : ∀ m ∈ ms, ∃ ext ∈ mediaExts, m.name = id ++ ext) :
    ∀ fs f, f ∈ fs → isCountedVideo f = true → stemOf f.name ≠ id →
      f ∈ (deleteLoop id ms fs).1 := by
  induction ms with
  | nil => intro fs f hf _ _; exact hf
  | cons m ms ih =>
      intro fs f hf hcv hne
      rw [deleteLoop]
      by_cases hc : fs.contains m
      · rw [if_pos hc]
        refine ih (fun x hx => hm x (List.mem_cons_of_mem _ hx)) _ f ?_ hcv hne
        have hfm : f ≠ m := by
          intro he2
          obtain ⟨ext, hext, hname⟩ := hm m (List.mem_cons_self _ _)
          apply hne
          rw [he2, hname]
          exact mediaName_stem hid hext
        have hfe : f ∈ fs.erase m := (List.mem_erase_of_ne hfm).mpr hf
        unfold deleteAuxIn
        rw [List.mem_filter]
        refine ⟨hfe, ?_⟩
        rw [countedVideo_aux_skip hcv]
        rfl
      · rw [if_neg hc]
        exact hf

theorem deleteLoop_subset (id : String) (ms : List CFile) :
    ∀ fs, (deleteLoop id ms fs).1 ⊆ fs := by
  induction ms with
  | nil => intro fs x hx; exact hx
  | cons m ms ih =>
      intro fs x hx
      rw [deleteLoop] at hx
      by_cases hc : fs.contains m
      · rw [if_pos hc] at hx
        have h1 := ih _ hx
        have h2 : x ∈ fs.erase m := (List.mem_filter.mp h1).1
        exact List.erase_subset _ _ h2
      · rw [if_neg hc] at hx
        exact hx

theorem deleteLoop_nodup (id : String) (ms : List CFile) :
    ∀ fs, fs.Nodup → (deleteLoop id ms fs).1.Nodup := by
  induction ms with
  | nil => intro fs h; exact h
  | cons m ms ih =>
      intro fs h
      rw [deleteLoop]
      by_cases hc : fs.contains m
      · rw [if_pos hc]
        exact ih _ ((h.erase m).filter _)
      · rw [if_neg hc]
        exact h

theorem deleteLoop_flag_removes (id : String) (ms : List CFile) :
    ∀ fs, fs.Nodup → (deleteLoop id ms fs).2 = true →
      ∀ m ∈ ms, m ∉ (deleteLoop id ms fs).1 := by
  induction ms with
  | nil => intro fs _ _ m hm; cases hm
  | cons m0 ms ih =>
      intro fs hnd hflag m hm
      rw [deleteLoop] at hflag ⊢
      by_cases hc : fs.contains m0
      · rw [if_pos hc] at hflag ⊢
        rcases List.mem_cons.mp hm with rfl | hm2
        · intro hmem
          have h1 := deleteLoop_subset id ms _ hmem
          have h2 : m ∈ fs.erase m := (List.mem_filter.mp h1).1
          exact hnd.not_mem_erase h2
        · exact ih _ ((hnd.erase m0).filter _) hflag m hm2
      · rw [if_neg hc] at hflag
        cases hflag

theorem delete_preserves_other (id : String) (hid : id.toList ≠ []) (fs : List CFile)
    (f : CFile) (hf : f ∈ fs) (hcv : isCountedVideo f = true)
    (hne : stemOf f.name ≠ id) : f ∈ (delete_cached_file id fs).1 := by
  unfold delete_cached_file
  by_cases he : (allMediaFiles id fs).isEmpty
  · rw [if_pos he]
    exact hf
  · rw [if_neg he]
    exact deleteLoop_preserves id hid _ (fun m hm => (mem_allMediaFiles hm).2) fs f hf hcv hne

theorem delete_subset (id : String) (fs : List CFile) :
    (delete_cached_file id fs).1 ⊆ fs := by
  unfold delete_cached_file
  by_cases he : (allMediaFiles id fs).isEmpty
  · rw [if_pos he]
    exact fun x hx => hx
  · rw [if_neg he]
    exact deleteLoop_subset id _ fs

theorem delete_nodup (id : String) (fs : List CFile) (h : fs.Nodup) :
    (delete_cached_file id fs).1.Nodup := by
  unfold delete_cached_file
  by_cases he : (allMediaFiles id fs).isEmpty
  · rw [if_pos he]
    exact h
  · rw [if_neg he]
    exact deleteLoop_nodup id _ fs h

theorem delete_flag_removes (id : String) (fs : List CFile) (hnd : fs.Nodup)
    (hflag : (delete_cached_file id fs).2 = true) (f : CFile) (hf : f ∈ fs)
    (hcv : isCountedVideo f = true) (hb : ∀ e ∈ videoExts, f.name ≠ e)
    (hstem : stemOf f.name = id) :
    f ∉ (delete_cached_file id fs).1 := by
  obtain ⟨e, he, hname, hsne⟩ := countedVideo_shape hcv hb
  have hmem : f ∈ allMediaFiles id fs := by
    unfold allMediaFiles
    rw [List.mem_flatMap]
    refine ⟨e, videoExt_mem_media e he, ?_⟩
    rw [List.mem_append]
    right
    rw [List.mem_filter]
    refine ⟨hf, beq_iff_eq.mpr ?_⟩
    rw [← hstem]
    exact hname
  unfold delete_cached_file at hflag ⊢
  by_cases hempty : (allMediaFiles id fs).isEmpty
  · rw [if_pos hempty] at hflag
    cases hflag
  · rw [if_neg hempty] at hflag ⊢
    exact deleteLoop_flag_removes id _ fs hnd hflag f hmem

theorem runEvictions_subset (ids : List String) :
    ∀ fs, (runEvictions ids fs).1 ⊆ fs := by
  induction ids with
  | nil => intro fs x hx; exact hx
  | cons id rest ih =>
      intro fs x hx
      rw [runEvictions] at hx
      exact delete_subset id fs (ih _ hx)

theorem runEvictions_nodup (ids : List String) :
    ∀ fs, fs.Nodup → (runEvictions ids fs).1.Nodup := by
  induction ids with
  | nil => intro fs h; exact h
  | cons id rest ih =>
      intro fs h
      rw [runEvictions]
      exact ih _ (delete_nodup id fs h)

theorem runEvictions_preserves (ids : List String) (hids : ∀ id ∈ ids, id ≠ "") :
    ∀ fs f, f ∈ fs → isCountedVideo f = true →
      (∀ id ∈ ids, stemOf f.name ≠ id) → f ∈ (runEvictions ids fs).1 := by
  induction ids with
  | nil => intro fs f hf _ _; exact hf
  | cons id rest ih =>
      intro fs f hf hcv hne
      rw [runEvictions]
      refine ih (fun x hx => hids x (List.mem_cons_of_mem _ hx)) _ f ?_ hcv
        (fun x hx => hne x (List.mem_cons_of_mem _ hx))
      refine delete_preserves_other id ?_ fs f hf hcv (hne id (List.mem_cons_self _ _))
      intro h0
      exact hids id (List.mem_cons_self _ _) (toList_eq_nil_iff.mp h0)

theorem runEvictions_removes (ids : List String) (hids : ∀ id ∈ ids, id ≠ "") :
    ∀ fs, fs.Nodup → (runEvictions ids fs).2 = true →
      ∀ f ∈ fs, isCountedVideo f = true → (∀ e ∈ videoExts, f.name ≠ e) →
        stemOf f.name ∈ ids → f ∉ (runEvictions ids fs).1 := by
  induction ids with
  | nil => intro fs _ _ f _ _ _ hmem; cases hmem
  | cons id rest ih =>
      intro fs hnd hflag f hf hcv hb hmem
      rw [runEvictions] at hflag ⊢
      rw [Bool.and_eq_true] at hflag
      obtain ⟨hflag1, hflag2⟩ := hflag
      by_cases hsid : stemOf f.name = id
      · intro hx
        exact delete_flag_removes id fs hnd hflag1 f hf hcv hb hsid
          (runEvictions_subset rest _ hx)
      · have hmem2 : stemOf f.name ∈ rest := by
          rcases List.mem_cons.mp hmem with h | h
          · exact absurd h hsid
          · exact h
        have hf2 : f ∈ (delete_cached_file id fs).1 := by
          refine delete_preserves_other id ?_ fs f hf hcv hsid
          intro h0
          exact hids id (List.mem_cons_self _ _) (toList_eq_nil_iff.mp h0)
        exact ih (fun x hx => hids x (List.mem_cons_of_mem _ hx)) _
          (delete_nodup id fs hnd) hflag2 f hf2 hcv hb hmem2

theorem fetchStep_characterize (dl nfoAdd : YVal → List CFile) (c : List String)
    (p : YVal × YVal) (fs : List CFile) :
    fetchStep dl nfoAdd c p fs = fs ∨
    (p.2.truthy = true ∧ (fetchStep dl nfoAdd c p fs = fs ++ dl p.1 ∨
      fetchStep dl nfoAdd c p fs = fs ++ nfoAdd p.1)) := by
  unfold fetchStep
  by_cases ht : p.2.truthy
  · rw [if_pos ht]
    refine Or.inr ⟨ht, ?_⟩
    split
    · next s heq =>
        by_cases hc : c.contains s
        · rw [if_pos hc]
          exact Or.inr rfl
        · rw [if_neg hc]
          exact Or.inl rfl
    · exact Or.inl rfl
  · rw [if_neg ht]
    exact Or.inl rfl

theorem fetchStep_sub (dl nfoAdd : YVal → List CFile) (c : List String)
    (p : YVal × YVal) (fs : List CFile) : fs ⊆ fetchStep dl nfoAdd c p fs := by
  rcases fetchStep_characterize dl nfoAdd c p fs with h | ⟨_, h | h⟩ <;>
    · rw [h]
      first
      | exact fun x hx => hx
      | exact fun x hx => List.mem_append_left _ hx

theorem fetchStep_fetch (dl nfoAdd : YVal → List CFile) (c : List String)
    {p : YVal × YVal} {s : String} (ht : p.2.truthy = true) (hk : p.1 = YVal.str s)
    (hnc : c.contains s = false) (fs : List CFile) :
    fetchStep dl nfoAdd c p fs = fs ++ dl p.1 := by
  unfold fetchStep
  rw [if_pos ht]
  split
  · next s2 heq =>
      rw [hk] at heq
      injection heq with h2
      subst h2
      rw [if_neg (by rw [hnc]; exact Bool.false_ne_true)]
  · next hne =>
      exact absurd hk (hne s)

theorem runFetchPass_mono (dl nfoAdd : YVal → List CFile) (c : List String)
    (items : List (YVal × YVal)) : ∀ fs, fs ⊆ runFetchPass dl nfoAdd c items fs := by
  induction items with
  | nil => intro fs x hx; exact hx
  | cons p rest ih =>
      intro fs x hx
      rw [runFetchPass]
      exact ih _ (fetchStep_sub dl nfoAdd c p fs hx)

theorem runFetchPass_mem (dl nfoAdd : YVal → List CFile) (c : List String)
    (items : List (YVal × YVal)) :
    ∀ fs f, f ∈ runFetchPass dl nfoAdd c items fs →
      f ∈ fs ∨ ∃ p ∈ items, p.2.truthy = true ∧ (f ∈ dl p.1 ∨ f ∈ nfoAdd p.1) := by
  induction items with
  | nil => intro fs f hf; exact Or.inl hf
  | cons p rest ih =>
      intro fs f hf
      rw [runFetchPass] at hf
      rcases ih _ f hf with h | ⟨q, hq, ht, hd⟩
      · rcases fetchStep_characterize dl nfoAdd c p fs with hc | ⟨ht, hc | hc⟩
        · rw [hc] at h
          exact Or.inl h
        · rw [hc] at h
          rcases List.mem_append.mp h with h2 | h2
          · exact Or.inl h2
          · exact Or.inr ⟨p, List.mem_cons_self _ _, ht, Or.inl h2⟩
        · rw [hc] at h
          rcases List.mem_append.mp h with h2 | h2
          · exact Or.inl h2
          · exact Or.inr ⟨p, List.mem_cons_self _ _, ht, Or.inr h2⟩
      · exact Or.inr ⟨q, List.mem_cons_of_mem _ hq, ht, hd⟩

theorem runFetchPass_adds (dl nfoAdd : YVal → List CFile) (c : List String)
    {items : List (YVal × YVal)} {p : YVal × YVal} {s : String}
    (hp : p ∈ items) (ht : p.2.truthy = true) (hk : p.1 = YVal.str s)
    (hnc : c.contains s = false) :
    ∀ fs, dl p.1 ⊆ runFetchPass dl nfoAdd c items fs := by
  induction items with
  | nil => cases hp
  | cons q rest ih =>
      intro fs x hx
      rw [runFetchPass]
      rcases List.mem_cons.mp hp with rfl | hp2
      · apply runFetchPass_mono
        rw [fetchStep_fetch dl nfoAdd c ht hk hnc]
        exact List.mem_append_right _ hx
      · exact ih hp2 _ hx

theorem mem_of_assocGet {m : List (YVal × YVal)} {k v : YVal}
    (h : assocGet m k = some v) : (k, v) ∈ m := by
  unfold assocGet at h
  cases hf : m.find? (fun p => p.1 == k) with
  | none =>
      rw [hf] at h
      cases h
  | some p =>
      rw [hf] at h
      have hp : (p.1 == k) = true := by
        have h2 := List.find?_some hf
        simpa using h2
      have hmem := List.mem_of_find?_eq_some hf
      have hv : p.2 = v := by
        simpa using h
      have hk : p.1 = k := beq_iff_eq.mp hp
      have : (k, v) = p := by
        rw [← hk, ← hv]
      rw [this]
      exact hmem

theorem assocGet_of_mem {m : List (YVal × YVal)}
    (hnd : (m.map (fun p => p.1)).Nodup) {k v : YVal} (hmem : (k, v) ∈ m) :
    assocGet m k = some v := by
  induction m with
  | nil => cases hmem
  | cons q rest ih =>
      rw [List.map_cons, List.nodup_cons] at hnd
      cases hqk : (q.1 == k) with
      | true =>
          have hq : q.1 = k := beq_iff_eq.mp hqk
          rcases List.mem_cons.mp hmem with he | hr
          · simp only [assocGet, List.find?_cons, hqk, Option.map_some']
            rw [← he]
          · exfalso
            apply hnd.1
            rw [hq]
            exact List.mem_map.mpr ⟨(k, v), hr, rfl⟩
      | false =>
          have hr : (k, v) ∈ rest := by
            rcases List.mem_cons.mp hmem with he | hr
            · exfalso
              rw [← he] at hqk
              simp at hqk
            · exact hr
          simp only [assocGet, List.find?_cons, hqk]
          exact ih hnd.2 hr

theorem assocSet_keys (m : List (YVal × YVal)) (k v : YVal) :
    (assocSet m k v).map (fun p => p.1) =
      if m.any (fun p => p.1 == k) then m.map (fun p => p.1)
      else m.map (fun p => p.1) ++ [k] := by
  unfold assocSet
  split
  · rw [List.map_map]
    apply List.map_congr_left
    intro p _
    by_cases hp : (p.1 == k) = true
    · simp only [Function.comp, hp, if_true]
      exact (beq_iff_eq.mp hp).symm
    · have hne : p.1 ≠ k := fun he => hp (beq_iff_eq.mpr he)
      simp [hne]
  · simp

theorem assocSet_keys_nodup (m : List (YVal × YVal)) (k v : YVal)
    (h : (m.map (fun p => p.1)).Nodup) :
    ((assocSet m k v).map (fun p => p.1)).Nodup := by
  rw [assocSet_keys]
  split
  · exact h
  · next hany =>
      have hk : k ∉ m.map (fun p => p.1) := by
        intro hmem
        apply hany
        obtain ⟨p, hp, hpk⟩ := List.mem_map.mp hmem
        exact List.any_eq_true.mpr ⟨p, hp, beq_iff_eq.mpr hpk⟩
      rw [List.nodup_append]
      refine ⟨h, List.nodup_singleton k, ?_⟩
      intro a ha hb
      rw [List.mem_singleton.mp hb] at ha
      exact hk ha

theorem shouldCacheStep_keys_nodup (m : List (YVal × YVal))
    (n : Option (List (String × YVal))) (h : (m.map (fun p => p.1)).Nodup) :
    ((shouldCacheStep m n).map (fun p => p.1)).Nodup := by
  cases n with
  | none => exact h
  | some fm =>
      show ((if !fm.isEmpty && fmHasKey fm "locator" then
          match fmGet fm "locator" with
          | some loc => assocSet m loc ((fmGet fm "cache").getD (.bool false))
          | none => m
        else m).map (fun p => p.1)).Nodup
      split
      · cases hloc : fmGet fm "locator" with
        | some loc => exact assocSet_keys_nodup _ _ _ h
        | none => exact h
      · exact h

theorem buildShouldCache_keys_nodup (notes : List (Option (List (String × YVal)))) :
    ((buildShouldCache notes).map (fun p => p.1)).Nodup := by
  unfold buildShouldCache
  have hgen : ∀ (l : List (Option (List (String × YVal)))) (m : List (YVal × YVal)),
      (m.map (fun p => p.1)).Nodup → ((l.foldl shouldCacheStep m).map (fun p => p.1)).Nodup := by
    intro l
    induction l with
    | nil => intro m h; exact h
    | cons n rest ih =>
        intro m h
        rw [List.foldl_cons]
        exact ih _ (shouldCacheStep_keys_nodup m n h)
  exact hgen notes [] (by simp)

/-- C1 counterexample: the original claim fails on a cache holding a root
file named exactly `.mp4` (its `pathlib` stem is `.mp4` itself) beside a
subdirectory file `c/.mp4.mp4` with the same stem.  With no notes, the pass
evicts the undesired stem `.mp4`; `delete_cached_file` finds only
`c/.mp4.mp4` (the patterns `{id}.mp4` and `**/{id}.mp4` never match the
bare `.mp4`), removes it and returns `True` — a fully-successful run — yet
the bare `.mp4` file survives, so a cached locator with no note is still
cached after the pass. -/
theorem c1_reconciliation_convergence_counterexample :
    ([⟨[], ".mp4"⟩, ⟨["c"], ".mp4.mp4"⟩] : List CFile).Nodup
      ∧ (manage_youtube_cache [] (fun _ => []) (fun _ => [])
          [⟨[], ".mp4"⟩, ⟨["c"], ".mp4.mp4"⟩]).2 = true
      ∧ ".mp4" ∈ get_youtube_cached_ids
          (manage_youtube_cache [] (fun _ => []) (fun _ => [])
            [⟨[], ".mp4"⟩, ⟨["c"], ".mp4.mp4"⟩]).1
      ∧ assocGet (buildShouldCache []) (YVal.str ".mp4") = none := by
  decide

/--
C1 (amended): one fully-successful pass of `manage_youtube_cache` (every
delete call succeeded, every download wrote its video, no external call
added stray video files, all locators are strings), over a cache in which
no video file is named exactly a bare extension such as `.mp4` (whose
`pathlib` stem is the whole name, so eviction cannot reach it), leaves the
set of cached locators equal to exactly those whose desired-cache value is
truthy.
-/
theorem c1_reconciliation_convergence
    (notes : List (Option (List (String × YVal)))) (dl nfoAdd : YVal → List CFile)
    (fs : List CFile) (hnd : fs.Nodup)
    (hwf : ∀ f ∈ fs, ∀ e ∈ videoExts, f.name ≠ e)
    (hkeys : ∀ p ∈ buildShouldCache notes, ∃ t, p.1 = YVal.str t)
    (hflag : (manage_youtube_cache notes dl nfoAdd fs).2 = true)
    (hdl1 : ∀ t : String,
      YVal.str t ∈ fetchKeys (get_youtube_cached_ids fs) (buildShouldCache notes) →
      ∃ f ∈ dl (YVal.str t), isCountedVideo f = true ∧ stemOf f.name = t)
    (hdl2 : ∀ t : String, ∀ f ∈ dl (YVal.str t), isCountedVideo f = true → stemOf f.name = t)
    (hnfo : ∀ k, ∀ f ∈ nfoAdd k, isCountedVideo f = false) :
    ∀ s : String,
      s ∈ get_youtube_cached_ids (manage_youtube_cache notes dl nfoAdd fs).1 ↔
      ∃ v, assocGet (buildShouldCache notes) (YVal.str s) = some v ∧ v.truthy = true := by
  intro s
  have hD := buildShouldCache_keys_nodup notes
  have hman : manage_youtube_cache notes dl nfoAdd fs =
      (runFetchPass dl nfoAdd (get_youtube_cached_ids fs) (buildShouldCache notes)
        (runEvictions (evictIds (get_youtube_cached_ids fs) (buildShouldCache notes)) fs).1,
       (runEvictions (evictIds (get_youtube_cached_ids fs) (buildShouldCache notes)) fs).2) := rfl
  rw [hman] at hflag ⊢
  set D := buildShouldCache notes with hDdef
  set C0 := get_youtube_cached_ids fs with hC0def
  set E := evictIds C0 D with hEdef
  have hEprops : ∀ id ∈ E, id ≠ "" := by
    intro id hid
    have hc0 : id ∈ C0 := (List.mem_filter.mp hid).1
    obtain ⟨f, hf, hcv, hstem⟩ := mem_cachedIds.mp hc0
    have hfne : f.name.toList ≠ [] := by
      simp only [isCountedVideo, List.any_eq_true] at hcv
      obtain ⟨e, he, hend⟩ := hcv
      obtain ⟨v, hv⟩ := endsWith_decomp hend
      obtain ⟨m, hm, hmne, -⟩ := videoExt_props e he
      rw [hv, hm]
      simp
    intro h0
    apply stemOf_toList_ne_nil hfne
    rw [hstem, h0]
    rfl
  constructor
  · intro hmem
    obtain ⟨f, hf, hcv, hstem⟩ := mem_cachedIds.mp hmem
    rcases runFetchPass_mem dl nfoAdd C0 D _ f hf with hin | ⟨p, hp, ht, hor⟩
    · have hfs : f ∈ fs := runEvictions_subset E fs hin
      by_cases hdes : ∃ v, assocGet D (YVal.str s) = some v ∧ v.truthy = true
      · exact hdes
      · exfalso
        have hsE : s ∈ E := by
          rw [hEdef]
          unfold evictIds
          rw [List.mem_filter]
          refine ⟨mem_cachedIds.mpr ⟨f, hfs, hcv, hstem⟩, ?_⟩
          cases hget : assocGet D (YVal.str s) with
          | none => rfl
          | some v =>
              show (!v.truthy) = true
              have hvf : v.truthy = false := by
                cases hvt : v.truthy
                · rfl
                · exact absurd ⟨v, hget, hvt⟩ hdes
              rw [hvf]
              rfl
        exact runEvictions_removes E hEprops fs hnd hflag f hfs hcv (hwf f hfs)
          (by rw [hstem]; exact hsE) hin
    · rcases hor with hdlm | hnf
      · obtain ⟨t, hk⟩ := hkeys p hp
        have hstem2 : stemOf f.name = t := hdl2 t f (hk ▸ hdlm) hcv
        have hts : t = s := by rw [← hstem2, hstem]
        subst hts
        refine ⟨p.2, ?_, ht⟩
        have hmemD : (YVal.str t, p.2) ∈ D := by
          rw [← hk]
          simpa using hp
        exact assocGet_of_mem hD hmemD
      · have hfalse := hnfo p.1 f hnf
        rw [hcv] at hfalse
        cases hfalse
  · rintro ⟨v, hget, htr⟩
    have hpD : (YVal.str s, v) ∈ D := mem_of_assocGet hget
    by_cases hc0 : s ∈ C0
    · obtain ⟨f, hf, hcv, hstem⟩ := mem_cachedIds.mp hc0
      have hsurv : f ∈ (runEvictions E fs).1 := by
        apply runEvictions_preserves E hEprops fs f hf hcv
        intro id hid heq
        have hids : id = s := by rw [← heq, hstem]
        rw [hids] at hid
        have hcond := (List.mem_filter.mp hid).2
        rw [hget] at hcond
        have : (!v.truthy) = true := hcond
        rw [htr] at this
        cases this
      exact mem_cachedIds.mpr
        ⟨f, runFetchPass_mono dl nfoAdd C0 D _ hsurv, hcv, hstem⟩
    · have hnc : C0.contains s = false := by
        cases hcc : C0.contains s
        · rfl
        · exact absurd (List.mem_of_elem_eq_true hcc) hc0
      have hfk : YVal.str s ∈ fetchKeys C0 D := by
        unfold fetchKeys
        rw [List.mem_map]
        refine ⟨(YVal.str s, v), ?_, rfl⟩
        rw [List.mem_filter]
        refine ⟨hpD, ?_⟩
        show (v.truthy && !(C0.contains s)) = true
        rw [htr, hnc]
        rfl
      obtain ⟨f, hfdl, hcv, hstem⟩ := hdl1 s hfk
      have hin : f ∈ runFetchPass dl nfoAdd C0 D (runEvictions E fs).1 :=
        runFetchPass_adds dl nfoAdd C0 hpD htr rfl hnc _ hfdl
      exact mem_cachedIds.mpr ⟨f, hin, hcv, hstem⟩

/-- One desired-but-missing video is downloaded and one cached-but-undesired
video is evicted; afterwards the cached set matches the desired set. -/
theorem c1_reconciliation_convergence_witness :
    "vid1" ∈ get_youtube_cached_ids
        (manage_youtube_cache
          [some [("locator", YVal.str "vid1"), ("cache", YVal.bool true)],
           some [("locator", YVal.str "old1")]]
          (fun k => match k with
            | YVal.str t => if t == "vid1" then [⟨["c", "2021"], "vid1.mp4"⟩] else []
            | _ => [])
          (fun _ => [])
          [⟨["c", "2020"], "old1.mp4"⟩]).1 ↔
      ∃ v, assocGet (buildShouldCache
          [some [("locator", YVal.str "vid1"), ("cache", YVal.bool true)],
           some [("locator", YVal.str "old1")]]) (YVal.str "vid1") = some v ∧
        v.truthy = true :=
  c1_reconciliation_convergence
    [some [("locator", YVal.str "vid1"), ("cache", YVal.bool true)],
     some [("locator", YVal.str "old1")]]
    (fun k => match k with
      | YVal.str t => if t == "vid1" then [⟨["c", "2021"], "vid1.mp4"⟩] else []
      | _ => [])
    (fun _ => [])
    [⟨["c", "2020"], "old1.mp4"⟩]
    (by decide)
    (by decide)
    (by
      intro p hp
      have hDC : buildShouldCache
          [some [("locator", YVal.str "vid1"), ("cache", YVal.bool true)],
           some [("locator", YVal.str "old1")]]
          = [(YVal.str "vid1", YVal.bool true), (YVal.str "old1", YVal.bool false)] := by
        decide
      rw [hDC] at hp
      rcases List.mem_cons.mp hp with rfl | hp2
      · exact ⟨"vid1", rfl⟩
      · rcases List.mem_cons.mp hp2 with rfl | hp3
        · exact ⟨"old1", rfl⟩
        · cases hp3)
    (by decide)
    (by
      intro t htk
      have he : fetchKeys
          (get_youtube_cached_ids [⟨["c", "2020"], "old1.mp4"⟩])
          (buildShouldCache
            [some [("locator", YVal.str "vid1"), ("cache", YVal.bool true)],
             some [("locator", YVal.str "old1")]])
          = [YVal.str "vid1"] := by decide
      rw [he] at htk
      have ht2 : YVal.str t = YVal.str "vid1" := List.mem_singleton.mp htk
      injection ht2 with ht3
      subst ht3
      exact ⟨⟨["c", "2021"], "vid1.mp4"⟩, by decide, by decide, by decide⟩)
    (by
      intro t f hf hcv
      by_cases ht : t = "vid1"
      · subst ht
        have hf2 : f = ⟨["c", "2021"], "vid1.mp4"⟩ := by
          simpa using hf
        rw [hf2]
        decide
      · exfalso
        have hf2 : f ∈ (if (t == "vid1") = true
            then [(⟨["c", "2021"], "vid1.mp4"⟩ : CFile)] else []) := hf
        rw [if_neg (fun h => ht (by simpa using h))] at hf2
        cases hf2)
    (by
      intro k f hf
      cases hf)
    "vid1"

theorem watchUrl_ne (v s : String) (hs : s.toList.head? = some '-') :
    "https://www.youtube.com/watch?v=" ++ v ≠ s := by
  intro he
  have hh : ("https://www.youtube.com/watch?v=" ++ v).toList.head? = some 'h' := by
    rw [toList_append, List.head?_append_of_ne_nil _ (by decide)]
    decide
  rw [he, hs] at hh
  cases hh

/--
C7: when the primary download fails (metadata having succeeded), exactly
one reduced-feature fallback invocation is performed and the function then
reports the fallback's outcome; in every world the download executable is
invoked at most twice per locator, and the subtitle-acquisition options of
the primary command are absent from the fallback command.
-/
theorem c7_single_fallback (w : DownloadWorld) (vid tmpl : String)
    (hmeta : w.metadataOk = true) (hfail : w.primaryOk = false)
    (htmpl : tmpl ∉ ["--write-subs", "--write-auto-subs", "--embed-subs"]) :
    (download_youtube_video w vid tmpl).2 =
      [.metadataFetch (ytDlpJsonCmd vid),
       .download (ytDlpDownloadCmd vid tmpl),
       .download (ytDlpFallbackCmd vid tmpl)] ∧
    (download_youtube_video w vid tmpl).1 = w.fallbackOk ∧
    (∀ w2 : DownloadWorld, downloadCallCount (download_youtube_video w2 vid tmpl).2 ≤ 2) ∧
    "--write-subs" ∈ ytDlpDownloadCmd vid tmpl ∧
    "--write-auto-subs" ∈ ytDlpDownloadCmd vid tmpl ∧
    "--embed-subs" ∈ ytDlpDownloadCmd vid tmpl ∧
    "--write-subs" ∉ ytDlpFallbackCmd vid tmpl ∧
    "--write-auto-subs" ∉ ytDlpFallbackCmd vid tmpl ∧
    "--embed-subs" ∉ ytDlpFallbackCmd vid tmpl := by
  have hnotin : ∀ fl ∈ ["--write-subs", "--write-auto-subs", "--embed-subs"],
      fl ∉ ytDlpFallbackCmd vid tmpl := by
    intro fl hfl hmem
    simp only [List.mem_cons, List.not_mem_nil, or_false] at hfl
    simp only [ytDlpFallbackCmd, List.mem_cons, List.not_mem_nil, or_false] at hmem
    rcases hfl with rfl | rfl | rfl <;>
      rcases hmem with h | h | h | h | h | h | h | h | h | h <;>
        first
        | exact absurd h (by decide)
        | exact watchUrl_ne vid _ (by decide) h.symm
        | (subst h; exact htmpl (by decide))
  refine ⟨?_, ?_, ?_, ?_, ?_, ?_, ?_, ?_, ?_⟩
  · unfold download_youtube_video
    rw [hmeta, hfail]
    rfl
  · unfold download_youtube_video
    rw [hmeta, hfail]
    rfl
  · intro w2
    unfold download_youtube_video
    rcases w2 with ⟨m, p, fb⟩
    cases m <;> cases p <;> simp [downloadCallCount]
  · simp [ytDlpDownloadCmd]
  · simp [ytDlpDownloadCmd]
  · simp [ytDlpDownloadCmd]
  · exact hnotin _ (by decide)
  · exact hnotin _ (by decide)
  · exact hnotin _ (by decide)

/-- A world where the primary download fails and the fallback succeeds. -/
theorem c7_single_fallback_witness :
    (download_youtube_video ⟨true, false, true⟩ "abc123" "/cache/%(id)s.%(ext)s").2 =
      [.metadataFetch (ytDlpJsonCmd "abc123"),
       .download (ytDlpDownloadCmd "abc123" "/cache/%(id)s.%(ext)s"),
       .download (ytDlpFallbackCmd "abc123" "/cache/%(id)s.%(ext)s")] ∧
    (download_youtube_video ⟨true, false, true⟩ "abc123" "/cache/%(id)s.%(ext)s").1 =
      (⟨true, false, true⟩ : DownloadWorld).fallbackOk ∧
    (∀ w2 : DownloadWorld,
      downloadCallCount (download_youtube_video w2 "abc123" "/cache/%(id)s.%(ext)s").2 ≤ 2) ∧
    "--write-subs" ∈ ytDlpDownloadCmd "abc123" "/cache/%(id)s.%(ext)s" ∧
    "--write-auto-subs" ∈ ytDlpDownloadCmd "abc123" "/cache/%(id)s.%(ext)s" ∧
    "--embed-subs" ∈ ytDlpDownloadCmd "abc123" "/cache/%(id)s.%(ext)s" ∧
    "--write-subs" ∉ ytDlpFallbackCmd "abc123" "/cache/%(id)s.%(ext)s" ∧
    "--write-auto-subs" ∉ ytDlpFallbackCmd "abc123" "/cache/%(id)s.%(ext)s" ∧
    "--embed-subs" ∉ ytDlpFallbackCmd "abc123" "/cache/%(id)s.%(ext)s" :=
  c7_single_fallback ⟨true, false, true⟩ "abc123" "/cache/%(id)s.%(ext)s"
    rfl rfl (by decide)

theorem find_unparsed_logs_nil (yamlParse : List Char → Option (List (String × YVal)))
    (locator : Option String) :
    ∀ files, (find_unparsed_notes yamlParse locator files).2 = [] := by
  intro files
  induction files with
  | nil => rfl
  | cons f rest ih =>
      rw [find_unparsed_notes]
      cases (extract_frontmatter_pn yamlParse f.content).1 with
      | some fm =>
          by_cases h : noteMatches locator fm
          · simp only [h, if_true]
            exact ih
          · simp only [h, Bool.false_eq_true, if_false]
            exact ih
      | none => exact ih

/--
Counterexample to C8 as stated: scanning a directory with a note whose
frontmatter fails YAML parsing skips it and continues, but no parse error
is logged — the scan's log stream is empty.
-/
theorem c8_malformed_not_logged_counterexample :
    (extract_frontmatter_pn
        (fun b => if b = "parsed: false".toList then some [("parsed", YVal.bool false)]
          else none)
        "---\nbad: [\n---\n".toList).1 = none ∧
    find_unparsed_notes
        (fun b => if b = "parsed: false".toList then some [("parsed", YVal.bool false)]
          else none)
        none
        [⟨"a.md", "---\nparsed: false\n---\nA".toList⟩,
         ⟨"b.md", "---\nbad: [\n---\n".toList⟩,
         ⟨"c.md", "---\nparsed: false\n---\nC".toList⟩]
      = ([⟨"a.md", [("parsed", YVal.bool false)], "A".toList⟩,
          ⟨"c.md", [("parsed", YVal.bool false)], "C".toList⟩], ([] : List LogEntry)) := by
  exact ⟨by decide, by decide⟩

/--
C8 amended: a note file whose frontmatter fails YAML parsing is skipped and
the scan continues over the remaining files; no parse error is logged (the
scan emits no log entries at all).
-/
theorem c8_malformed_skipped_scan_continues
    (yamlParse : List Char → Option (List (String × YVal))) (locator : Option String)
    (xs ys : List MdScanFile) (bad : MdScanFile)
    (hbad : (extract_frontmatter_pn yamlParse bad.content).1 = none) :
    find_unparsed_notes yamlParse locator (xs ++ bad :: ys)
      = find_unparsed_notes yamlParse locator (xs ++ ys) ∧
    (find_unparsed_notes yamlParse locator (xs ++ bad :: ys)).2 = [] := by
  refine ⟨?_, find_unparsed_logs_nil _ _ _⟩
  induction xs with
  | nil =>
      rw [List.nil_append, List.nil_append, find_unparsed_notes, hbad]
  | cons x xs ih =>
      rw [List.cons_append, List.cons_append, find_unparsed_notes, find_unparsed_notes]
      cases (extract_frontmatter_pn yamlParse x.content).1 with
      | some fm =>
          by_cases h : noteMatches locator fm
          · simp only [h, if_true, ih]
          · simp only [h, Bool.false_eq_true, if_false, ih]
      | none => exact ih

/-- A malformed note between two good ones changes nothing of the scan's
result. -/
theorem c8_malformed_skipped_scan_continues_witness :
    find_unparsed_notes
        (fun b => if b = "parsed: false".toList then some [("parsed", YVal.bool false)]
          else none)
        none
        ([⟨"a.md", "---\nparsed: false\n---\nA".toList⟩] ++
          (⟨"b.md", "---\nbad: [\n---\n".toList⟩ : MdScanFile) ::
          [⟨"c.md", "---\nparsed: false\n---\nC".toList⟩])
      = find_unparsed_notes
        (fun b => if b = "parsed: false".toList then some [("parsed", YVal.bool false)]
          else none)
        none
        ([⟨"a.md", "---\nparsed: false\n---\nA".toList⟩] ++
          [⟨"c.md", "---\nparsed: false\n---\nC".toList⟩]) ∧
    (find_unparsed_notes
        (fun b => if b = "parsed: false".toList then some [("parsed", YVal.bool false)]
          else none)
        none
        ([⟨"a.md", "---\nparsed: false\n---\nA".toList⟩] ++
          (⟨"b.md", "---\nbad: [\n---\n".toList⟩ : MdScanFile) ::
          [⟨"c.md", "---\nparsed: false\n---\nC".toList⟩])).2 = [] :=
  c8_malformed_skipped_scan_continues
    (fun b => if b = "parsed: false".toList then some [("parsed", YVal.bool false)]
      else none)
    none
    [⟨"a.md", "---\nparsed: false\n---\nA".toList⟩]
    [⟨"c.md", "---\nparsed: false\n---\nC".toList⟩]
    ⟨"b.md", "---\nbad: [\n---\n".toList⟩
    (by decide)

theorem find_map_set_self (fm : List (String × YVal)) (k : String) (v : YVal)
    (h : fm.any (fun p => p.1 == k) = true) :
    (fm.map (fun p => if p.1 == k then (k, v) else p)).find? (fun p => p.1 == k)
      = some (k, v) := by
  induction fm with
  | nil => simp at h
  | cons p rest ih =>
      by_cases hp : (p.1 == k) = true
      · rw [List.map_cons, if_pos hp, List.find?_cons]
        have hh : (((k, v) : String × YVal).1 == k) = true := beq_iff_eq.mpr rfl
        rw [hh]
      · have hp2 : (p.1 == k) = false := by
          cases hb : (p.1 == k)
          · rfl
          · exact absurd hb hp
        have h2 : rest.any (fun q => q.1 == k) = true := by
          simpa [List.any_cons, hp2] using h
        rw [List.map_cons, if_neg hp, List.find?_cons, hp2]
        exact ih h2

theorem find_map_set_other (fm : List (String × YVal)) (k : String) (v : YVal)
    (k2 : String) (h : k2 ≠ k) :
    (fm.map (fun p => if p.1 == k then (k, v) else p)).find? (fun p => p.1 == k2)
      = fm.find? (fun p => p.1 == k2) := by
  induction fm with
  | nil => rfl
  | cons p rest ih =>
      by_cases hp : (p.1 == k) = true
      · have hpk : p.1 = k := beq_iff_eq.mp hp
        have h1 : (((k, v) : String × YVal).1 == k2) = false := by
          cases hb : (k == k2)
          · rfl
          · exact absurd (beq_iff_eq.mp hb).symm h
        have h2 : (p.1 == k2) = false := by
          show (p.1 == k2) = false
          rw [hpk]
          exact h1
        rw [List.map_cons, if_pos hp, List.find?_cons, List.find?_cons, h1, h2]
        exact ih
      · have hp2 : (p.1 == k) = false := by
          cases hb : (p.1 == k)
          · rfl
          · exact absurd hb hp
        rw [List.map_cons, if_neg hp, List.find?_cons, List.find?_cons]
        cases hq : (p.1 == k2) with
        | true => rfl
        | false => exact ih

theorem fmGet_fmSet_self (fm : List (String × YVal)) (k : String) (v : YVal) :
    fmGet (fmSet fm k v) k = some v := by
  unfold fmSet
  by_cases h : fm.any (fun p => p.1 == k) = true
  · rw [if_pos h]
    unfold fmGet
    rw [find_map_set_self fm k v h]
    rfl
  · rw [if_neg h]
    have hnone : fm.find? (fun p => p.1 == k) = none := by
      rw [List.find?_eq_none]
      intro p hp hb
      exact h (List.any_eq_true.mpr ⟨p, hp, hb⟩)
    unfold fmGet
    rw [List.find?_append, hnone]
    have hh : (((k, v) : String × YVal).1 == k) = true := beq_iff_eq.mpr rfl
    show Option.map (fun p => p.2) (List.find? (fun p => p.1 == k) [(k, v)]) = some v
    rw [List.find?_cons, hh]
    rfl

theorem fmGet_fmSet_other {fm : List (String × YVal)} {k : String} {v : YVal}
    {k2 : String} (h : k2 ≠ k) : fmGet (fmSet fm k v) k2 = fmGet fm k2 := by
  unfold fmSet
  by_cases hany : fm.any (fun p => p.1 == k) = true
  · rw [if_pos hany]
    unfold fmGet
    rw [find_map_set_other fm k v k2 h]
  · rw [if_neg hany]
    have h1 : (((k, v) : String × YVal).1 == k2) = false := by
      cases hb : (k == k2)
      · rfl
      · exact absurd (beq_iff_eq.mp hb).symm h
    unfold fmGet
    rw [List.find?_append, List.find?_cons, h1]
    cases hfm : fm.find? (fun p => p.1 == k2) <;> rfl

theorem fmSetMany_cons (fm : List (String × YVal)) (k : String) (v : YVal)
    (rest : List (String × YVal)) :
    fmSetMany fm ((k, v) :: rest) = fmSetMany (fmSet fm k v) rest := rfl

theorem fmSetMany_nil (fm : List (String × YVal)) : fmSetMany fm [] = fm := rfl

theorem fmGet_applyPublishedDate_cache (base : List (String × YVal))
    (pd : Option YVal) :
    fmGet (applyPublishedDate base pd) "cache" = fmGet base "cache" := by
  cases pd with
  | none => rfl
  | some pv =>
      show fmGet (if pv.truthy then fmSet base "published_date" pv else base)
        "cache" = fmGet base "cache"
      by_cases hpv : pv.truthy = true
      · rw [if_pos hpv]
        exact fmGet_fmSet_other (by decide)
      · rw [if_neg hpv]

/-- A successful `parse_note` run pins down the locator, the parsed upload
date, and the shape of the returned frontmatter. -/
theorem parse_note_characterize (info : VideoInfo) (fm fm2 : List (String × YVal))
    (body : String)
    (hok : parse_note_youtube (some info) fm = some (fm2, body)) :
    ∃ loc dateKey, fmGet fm "locator" = some loc ∧ loc.truthy = true
      ∧ strptimeYMD8 ((info.upload_date).getD "") = some dateKey
      ∧ fm2 = buildUpdatedFrontmatter fm info loc dateKey := by
  unfold parse_note_youtube at hok
  cases hloc : fmGet fm "locator" with
  | none =>
      rw [hloc] at hok
      exact Option.noConfusion hok
  | some loc =>
      rw [hloc] at hok
      have hok2 : (if loc.truthy then
          (match strptimeYMD8 ((info.upload_date).getD "") with
           | none => none
           | some dateKey =>
               some (buildUpdatedFrontmatter fm info loc dateKey,
                 "\n![thumbnail](" ++ (info.thumbnail).getD "" ++ ")\n"))
        else none) = some (fm2, body) := hok
      by_cases htr : loc.truthy = true
      · rw [if_pos htr] at hok2
        cases hdk : strptimeYMD8 ((info.upload_date).getD "") with
        | none =>
            rw [hdk] at hok2
            exact Option.noConfusion hok2
        | some dateKey =>
            rw [hdk] at hok2
            have hpair := Option.some.inj hok2
            exact ⟨loc, dateKey, rfl, htr, rfl, (congrArg Prod.fst hpair).symm⟩
      · rw [if_neg htr] at hok2
        exact Option.noConfusion hok2

set_option maxHeartbeats 1000000 in
/-- C9: when a YouTube note's frontmatter carries no explicit `cache` key, a
successful `parse_note` enrichment writes `cache: true` into the returned
frontmatter, even though the reconciler's desired-set pass over the same
(pre-enrichment) frontmatter records the locator with the default `false`. -/
theorem c9_parse_defaults_cache_true
    (info : VideoInfo) (fm fm2 : List (String × YVal)) (body : String)
    (hnc : fmGet fm "cache" = none)
    (hok : parse_note_youtube (some info) fm = some (fm2, body)) :
    fmGet fm2 "cache" = some (.bool true)
      ∧ ∃ loc, fmGet fm "locator" = some loc
          ∧ shouldCacheStep [] (some fm) = [(loc, YVal.bool false)] := by
  obtain ⟨loc, dateKey, hloc, htr, hdk, hfm2⟩ :=
    parse_note_characterize info fm fm2 body hok
  constructor
  · rw [hfm2]
    unfold buildUpdatedFrontmatter
    rw [fmGet_applyPublishedDate_cache]
    simp only [fmSetMany_cons, fmSetMany_nil]
    rw [fmGet_fmSet_other (show ("cache" : String) ≠ "channel_feed" by decide)]
    rw [fmGet_fmSet_other (show ("cache" : String) ≠ "channel_url" by decide)]
    rw [fmGet_fmSet_other (show ("cache" : String) ≠ "channel_id" by decide)]
    rw [fmGet_fmSet_other (show ("cache" : String) ≠ "channel" by decide)]
    rw [fmGet_fmSet_other (show ("cache" : String) ≠ "thumbnail" by decide)]
    rw [fmGet_fmSet_other (show ("cache" : String) ≠ "url" by decide)]
    rw [fmGet_fmSet_other (show ("cache" : String) ≠ "topics" by decide)]
    rw [fmGet_fmSet_other (show ("cache" : String) ≠ "type" by decide)]
    rw [fmGet_fmSet_other (show ("cache" : String) ≠ "class" by decide)]
    rw [fmGet_fmSet_other (show ("cache" : String) ≠ "tags" by decide)]
    rw [fmGet_fmSet_self, hnc]
    rfl
  · refine ⟨loc, hloc, ?_⟩
    have hne : fm ≠ [] := by
      intro e
      rw [e] at hloc
      exact Option.noConfusion hloc
    have hempty : fm.isEmpty = false := by
      cases fm with
      | nil => exact absurd rfl hne
      | cons p rest => rfl
    have hhk : fmHasKey fm "locator" = true := by
      unfold fmHasKey
      unfold fmGet at hloc
      cases hf : fm.find? (fun p => p.1 == "locator") with
      | none =>
          rw [hf] at hloc
          exact Option.noConfusion hloc
      | some q => rfl
    have hcond : (!fm.isEmpty && fmHasKey fm "locator") = true := by
      rw [hempty, hhk]
      rfl
    simp only [shouldCacheStep]
    rw [if_pos hcond, hloc, hnc]
    rfl

set_option maxHeartbeats 1000000 in
theorem c9_parse_defaults_cache_true_witness :
    fmGet fm2W "cache" = some (.bool true)
      ∧ ∃ loc, fmGet fmW "locator" = some loc
          ∧ shouldCacheStep [] (some fmW) = [(loc, YVal.bool false)] :=
  c9_parse_defaults_cache_true infoW fmW fm2W bodyW (by decide) (by decide)

end Capturemd
